import Mathlib

/-!
Verification development for the Hyperion core: a lease-based in-memory job
scheduler (`src/epoch.rs`) and an append-only NDJSON event log
(`src/vaultline.rs`).

Modelling conventions:
* `std::time::Instant` and `Duration` are modelled as `Nat` time stamps and
  durations; every operation that reads the clock takes an explicit `now`.
* `HashMap` is modelled as an association list with distinct keys; iteration
  order is list order (a refinement of the unordered map).
* `u32::saturating_add(1)` on `attempts` is modelled by `satAdd1`.
* Fallible operations return `Except String Unit` next to the updated state,
  mirroring `module::Result<()>`.
-/

namespace Hyperion

/-- `Job` from `epoch.rs`: id, kind, payload, created_at, attempts. -/
structure Job where
  id : Nat
  kind : String
  payload : String
  created_at : Nat
  attempts : Nat
deriving DecidableEq

/-- `Lease` from `epoch.rs`: the leased job and its expiry instant. -/
structure Lease where
  job : Job
  expires_at : Nat
deriving DecidableEq

/-- `Scheduler` from `epoch.rs`. `queued` models
`HashMap<String, VecDeque<Job>>` (front of each list = head of the deque),
`leased` models `HashMap<u64, Lease>`. -/
structure Scheduler where
  next_id : Nat
  queued : List (String × List Job)
  leased : List (Nat × Lease)
  done : List Job
  failed : List Job
  default_kind : String
deriving DecidableEq

/-- `u32::MAX`: `attempts` is a `u32` in the source. -/
def u32Max : Nat := 4294967295

/-- `attempts.saturating_add(1)` from `Scheduler::dequeue`. -/
def satAdd1 (a : Nat) : Nat := min (a + 1) u32Max

/-- `self.queued.get(kind)` on the association-list model. -/
def lookupQ : List (String × List Job) → String → Option (List Job)
  | [], _ => none
  | (k, q) :: rest, kind => if k = kind then some q else lookupQ rest kind

/-- In-place mutation of the deque found by `get_mut` (key assumed present). -/
def setQ : List (String × List Job) → String → List Job → List (String × List Job)
  | [], _, _ => []
  | (k, q) :: rest, kind, v =>
    if k = kind then (k, v) :: rest else (k, q) :: setQ rest kind v

/-- `self.queued.entry(kind).or_insert_with(VecDeque::new).push_back(job)`. -/
def pushQueue : List (String × List Job) → String → Job → List (String × List Job)
  | [], kind, j => [(kind, [j])]
  | (k, q) :: rest, kind, j =>
    if k = kind then (k, q ++ [j]) :: rest else (k, q) :: pushQueue rest kind j

/-- `self.leased.get(id)`. -/
def lookupL : List (Nat × Lease) → Nat → Option Lease
  | [], _ => none
  | (k, l) :: rest, id => if k = id then some l else lookupL rest id

/-- `self.leased.insert(id, lease)`: replace the binding if present, else add. -/
def insertL : List (Nat × Lease) → Nat → Lease → List (Nat × Lease)
  | [], id, l => [(id, l)]
  | (k, l0) :: rest, id, l =>
    if k = id then (id, l) :: rest else (k, l0) :: insertL rest id l

/-- `self.leased.remove(id)`: the removed lease (if any) and the remaining table. -/
def removeL : List (Nat × Lease) → Nat → Option Lease × List (Nat × Lease)
  | [], _ => (none, [])
  | (k, l) :: rest, id =>
    if k = id then (some l, rest)
    else
      let r := removeL rest id
      (r.1, (k, l) :: r.2)

/-- `Scheduler::new()`. -/
def Scheduler.new : Scheduler :=
  { next_id := 1, queued := [], leased := [], done := [], failed := [],
    default_kind := "default" }

/-- `Scheduler::enqueue`: allocate the next id, create the job with
`attempts = 0`, push it at the back of its kind's queue. -/
def enqueue (s : Scheduler) (kind payload : String) (now : Nat) : Nat × Scheduler :=
  let id := s.next_id
  let job : Job := ⟨id, kind, payload, now, 0⟩
  (id, { s with next_id := s.next_id + 1, queued := pushQueue s.queued kind job })

/-- `Scheduler::enqueue_default`. -/
def enqueue_default (s : Scheduler) (payload : String) (now : Nat) : Nat × Scheduler :=
  enqueue s s.default_kind payload now

/-- `Scheduler::dequeue`: pop the queue head, saturating-increment its
`attempts`, insert a lease expiring at `now + lease_duration`. -/
def dequeue (s : Scheduler) (kind : String) (lease_duration now : Nat) :
    Option Job × Scheduler :=
  match lookupQ s.queued kind with
  | none => (none, s)
  | some [] => (none, s)
  | some (j :: rest) =>
    let job := { j with attempts := satAdd1 j.attempts }
    let lease : Lease := ⟨job, now + lease_duration⟩
    (some job,
      { s with queued := setQ s.queued kind rest,
               leased := insertL s.leased job.id lease })

/-- `Scheduler::complete`: remove the lease, record the job in `done`. -/
def complete (s : Scheduler) (job_id : Nat) : Except String Unit × Scheduler :=
  match removeL s.leased job_id with
  | (some lease, leased1) =>
    (Except.ok (), { s with leased := leased1, done := s.done ++ [lease.job] })
  | (none, _) => (Except.error "complete(): job not leased/unknown", s)

/-- `Scheduler::fail`: remove the lease, re-enqueue the job at the tail of its
own kind's queue, record it in `failed`. -/
def fail (s : Scheduler) (job_id : Nat) : Except String Unit × Scheduler :=
  match removeL s.leased job_id with
  | (some lease, leased1) =>
    (Except.ok (),
      { s with leased := leased1,
               queued := pushQueue s.queued lease.job.kind lease.job,
               failed := s.failed ++ [lease.job] })
  | (none, _) => (Except.error "fail(): job not leased/unknown", s)

/-- Body of the loop in `Scheduler::reclaim_expired`: `if let Some(lease) =
self.leased.remove(&id) { re-enqueue }`. -/
def reclaimStep (s : Scheduler) (id : Nat) : Scheduler :=
  match removeL s.leased id with
  | (some lease, leased1) =>
    { s with leased := leased1,
             queued := pushQueue s.queued lease.job.kind lease.job }
  | (none, _) => s

/-- `Scheduler::reclaim_expired`: collect the ids of leases with
`expires_at <= now`, then remove each and re-enqueue its job. -/
def reclaim_expired (s : Scheduler) (now : Nat) : Scheduler :=
  let expired_ids := (s.leased.filter (fun p => decide (p.2.expires_at ≤ now))).map Prod.fst
  expired_ids.foldl reclaimStep s

/-- `Scheduler::depth`: total queued jobs across all kinds. -/
def depth (s : Scheduler) : Nat :=
  (s.queued.map (fun p => p.2.length)).sum

/-- `Scheduler::leased_count`. -/
def leased_count (s : Scheduler) : Nat := s.leased.length

/-! ### Association-list lemmas -/

theorem removeL_fst (l : List (Nat × Lease)) (id : Nat) :
    (removeL l id).1 = lookupL l id := by
  induction l with
  | nil => rfl
  | cons p rest ih =>
    obtain ⟨k, lease⟩ := p
    by_cases hk : k = id <;> simp [removeL, lookupL, hk, ih]

theorem lookupL_insertL_self (l : List (Nat × Lease)) (id : Nat) (lease : Lease) :
    lookupL (insertL l id lease) id = some lease := by
  induction l with
  | nil => simp [insertL, lookupL]
  | cons p rest ih =>
    obtain ⟨k, l0⟩ := p
    by_cases hk : k = id <;> simp [insertL, lookupL, hk, ih]

theorem lookupL_eq_none_of_not_mem (l : List (Nat × Lease)) (id : Nat)
    (h : id ∉ l.map Prod.fst) : lookupL l id = none := by
  induction l with
  | nil => rfl
  | cons p rest ih =>
    obtain ⟨k, lease⟩ := p
    simp only [List.map_cons, List.mem_cons, not_or] at h
    simp [lookupL, fun hk : k = id => h.1 hk.symm, ih h.2]
    intro hk
    exact absurd hk.symm h.1

theorem removeL_snd_map_fst (l : List (Nat × Lease)) (id : Nat) :
    ∀ k, k ∈ (removeL l id).2.map Prod.fst → k ∈ l.map Prod.fst := by
  induction l with
  | nil => intro k h; exact h
  | cons p rest ih =>
    obtain ⟨k0, lease⟩ := p
    intro k hk
    by_cases h0 : k0 = id
    · simp only [removeL, if_pos h0] at hk
      exact List.mem_cons_of_mem _ hk
    · simp only [removeL, if_neg h0, List.map_cons, List.mem_cons] at hk
      rcases hk with h | h
      · exact List.mem_cons.2 (Or.inl h)
      · exact List.mem_cons_of_mem _ (ih k h)

theorem lookupL_removeL_self (l : List (Nat × Lease)) (id : Nat)
    (h : (l.map Prod.fst).Nodup) : lookupL (removeL l id).2 id = none := by
  induction l with
  | nil => rfl
  | cons p rest ih =>
    obtain ⟨k, lease⟩ := p
    simp only [List.map_cons, List.nodup_cons] at h
    by_cases hk : k = id
    · simp only [removeL, if_pos hk]
      subst hk
      exact lookupL_eq_none_of_not_mem rest k h.1
    · simp only [removeL, if_neg hk, lookupL, if_neg hk]
      exact ih h.2

theorem lookupQ_pushQueue_self (q : List (String × List Job)) (kind : String)
    (j : Job) :
    lookupQ (pushQueue q kind j) kind = some ((lookupQ q kind).getD [] ++ [j]) := by
  induction q with
  | nil => simp [pushQueue, lookupQ]
  | cons p rest ih =>
    obtain ⟨k, jobs⟩ := p
    by_cases hk : k = kind <;> simp [pushQueue, lookupQ, hk, ih]

/-! ### Claim theorems: basic scheduler operations -/

/-- C10: when `dequeue` returns `none` and when `complete` or `fail` returns
the not-leased error, the entire scheduler state is left unchanged. -/
theorem dequeue_complete_fail_noop (s : Scheduler) (kind : String)
    (d now id : Nat) :
    ((dequeue s kind d now).1 = none → (dequeue s kind d now).2 = s) ∧
    (∀ e, (complete s id).1 = Except.error e → (complete s id).2 = s) ∧
    (∀ e, (fail s id).1 = Except.error e → (fail s id).2 = s) := by
  refine ⟨?_, ?_, ?_⟩
  · intro h
    unfold dequeue at h ⊢
    rcases hq : lookupQ s.queued kind with _ | q
    · simp [hq]
    · rcases q with _ | ⟨j, rest⟩
      · simp [hq]
      · simp [hq] at h
  · intro e h
    unfold complete at h ⊢
    rcases hr : removeL s.leased id with ⟨opt, rest⟩
    rcases opt with _ | lease
    · simp [hr]
    · simp [hr] at h
  · intro e h
    unfold fail at h ⊢
    rcases hr : removeL s.leased id with ⟨opt, rest⟩
    rcases opt with _ | lease
    · simp [hr]
    · simp [hr] at h

theorem dequeue_complete_fail_noop_witness :
    ((dequeue Scheduler.new "email" 5 10).1 = none ∧
      (dequeue Scheduler.new "email" 5 10).2 = Scheduler.new) ∧
    ((complete Scheduler.new 7).1 = Except.error "complete(): job not leased/unknown" ∧
      (complete Scheduler.new 7).2 = Scheduler.new) ∧
    ((fail Scheduler.new 7).1 = Except.error "fail(): job not leased/unknown" ∧
      (fail Scheduler.new 7).2 = Scheduler.new) :=
  ⟨⟨by decide,
    (dequeue_complete_fail_noop Scheduler.new "email" 5 10 7).1 (by decide)⟩,
   ⟨by rfl,
    (dequeue_complete_fail_noop Scheduler.new "email" 5 10 7).2.1
      "complete(): job not leased/unknown" (by rfl)⟩,
   ⟨by rfl,
    (dequeue_complete_fail_noop Scheduler.new "email" 5 10 7).2.2
      "fail(): job not leased/unknown" (by rfl)⟩⟩

theorem complete_error_of_not_leased (s : Scheduler) (id : Nat)
    (h : lookupL s.leased id = none) :
    complete s id = (Except.error "complete(): job not leased/unknown", s) := by
  have hrf := removeL_fst s.leased id
  rcases hr : removeL s.leased id with ⟨opt, rest⟩
  rw [hr] at hrf
  simp only at hrf
  rw [h] at hrf
  subst hrf
  simp [complete, hr]

theorem fail_error_of_not_leased (s : Scheduler) (id : Nat)
    (h : lookupL s.leased id = none) :
    fail s id = (Except.error "fail(): job not leased/unknown", s) := by
  have hrf := removeL_fst s.leased id
  rcases hr : removeL s.leased id with ⟨opt, rest⟩
  rw [hr] at hrf
  simp only at hrf
  rw [h] at hrf
  subst hrf
  simp [fail, hr]

theorem complete_ok_of_leased (s : Scheduler) (id : Nat) (lease : Lease)
    (h : lookupL s.leased id = some lease) :
    complete s id =
      (Except.ok (), { s with leased := (removeL s.leased id).2,
                              done := s.done ++ [lease.job] }) := by
  have hrf := removeL_fst s.leased id
  rcases hr : removeL s.leased id with ⟨opt, rest⟩
  rw [hr] at hrf
  simp only at hrf
  rw [h] at hrf
  subst hrf
  simp [complete, hr]

theorem fail_ok_of_leased (s : Scheduler) (id : Nat) (lease : Lease)
    (h : lookupL s.leased id = some lease) :
    fail s id =
      (Except.ok (), { s with leased := (removeL s.leased id).2,
                              queued := pushQueue s.queued lease.job.kind lease.job,
                              failed := s.failed ++ [lease.job] }) := by
  have hrf := removeL_fst s.leased id
  rcases hr : removeL s.leased id with ⟨opt, rest⟩
  rw [hr] at hrf
  simp only at hrf
  rw [h] at hrf
  subst hrf
  simp [fail, hr]

/-- C3: `complete(id)` succeeds exactly when `id` has an active lease, in which
case it removes the lease and records the leased job in the done history; it
fails with the not-leased error when `id` has no active lease; after a
successful `complete(id)`, a second `complete(id)` or a `fail(id)` on the same
id returns the not-leased error. -/
theorem complete_iff_leased (s : Scheduler) (id : Nat)
    (hnd : (s.leased.map Prod.fst).Nodup) :
    ((complete s id).1 = Except.ok () ↔ (lookupL s.leased id).isSome) ∧
    (lookupL s.leased id = none →
      complete s id = (Except.error "complete(): job not leased/unknown", s)) ∧
    (∀ lease, lookupL s.leased id = some lease →
      complete s id =
        (Except.ok (), { s with leased := (removeL s.leased id).2,
                                done := s.done ++ [lease.job] }) ∧
      (complete (complete s id).2 id).1 =
        Except.error "complete(): job not leased/unknown" ∧
      (fail (complete s id).2 id).1 =
        Except.error "fail(): job not leased/unknown") := by
  have hafter : lookupL (removeL s.leased id).2 id = none :=
    lookupL_removeL_self s.leased id hnd
  refine ⟨?_, ?_, ?_⟩
  · rcases hL : lookupL s.leased id with _ | lease
    · rw [complete_error_of_not_leased s id hL]
      simp
    · rw [complete_ok_of_leased s id lease hL]
      simp
  · intro h
    exact complete_error_of_not_leased s id h
  · intro lease hL
    have hok := complete_ok_of_leased s id lease hL
    refine ⟨hok, ?_, ?_⟩
    · rw [hok]
      rw [complete_error_of_not_leased _ id hafter]
    · rw [hok]
      rw [fail_error_of_not_leased _ id hafter]

theorem complete_iff_leased_witness :
    ((((dequeue (enqueue Scheduler.new "k" "p" 0).2 "k" 5 10).2.leased.map
        Prod.fst).Nodup) ∧
      lookupL (dequeue (enqueue Scheduler.new "k" "p" 0).2 "k" 5 10).2.leased 1 =
        some ⟨⟨1, "k", "p", 0, 1⟩, 15⟩) ∧
    (complete (dequeue (enqueue Scheduler.new "k" "p" 0).2 "k" 5 10).2 1 =
        (Except.ok (),
          { (dequeue (enqueue Scheduler.new "k" "p" 0).2 "k" 5 10).2 with
              leased :=
                (removeL (dequeue (enqueue Scheduler.new "k" "p" 0).2 "k" 5
                  10).2.leased 1).2,
              done :=
                (dequeue (enqueue Scheduler.new "k" "p" 0).2 "k" 5 10).2.done ++
                  [⟨1, "k", "p", 0, 1⟩] }) ∧
      (complete (complete (dequeue (enqueue Scheduler.new "k" "p" 0).2 "k" 5
          10).2 1).2 1).1 = Except.error "complete(): job not leased/unknown" ∧
      (fail (complete (dequeue (enqueue Scheduler.new "k" "p" 0).2 "k" 5
          10).2 1).2 1).1 = Except.error "fail(): job not leased/unknown") :=
  ⟨⟨by decide, by decide⟩,
    (complete_iff_leased (dequeue (enqueue Scheduler.new "k" "p" 0).2 "k" 5
        10).2 1 (by decide)).2.2 ⟨⟨1, "k", "p", 0, 1⟩, 15⟩ (by decide)⟩

/-- C6 counterexample: `dequeue` with a zero lease duration at time 100 inserts
a lease whose `expires_at` equals its creation time, so the expiry is not
strictly greater than the creation time. -/
theorem lease_expiry_strict_cex :
    lookupL (dequeue (enqueue Scheduler.new "k" "p" 0).2 "k" 0 100).2.leased 1 =
      some ⟨⟨1, "k", "p", 0, 1⟩, 100⟩ ∧ ¬ (100 < 100) := by
  decide

/-- C6 (amended): every lease inserted by `dequeue` has
`expires_at = creation time + lease_duration`, hence at least the creation
time, and strictly greater than it whenever the duration is positive. -/
theorem lease_expiry_ge (s : Scheduler) (kind : String) (d now : Nat) (j : Job)
    (h : (dequeue s kind d now).1 = some j) :
    lookupL (dequeue s kind d now).2.leased j.id = some ⟨j, now + d⟩ ∧
    now ≤ now + d ∧ (0 < d → now < now + d) := by
  unfold dequeue at h ⊢
  rcases hq : lookupQ s.queued kind with _ | q
  · rw [hq] at h
    exact absurd h (by simp)
  · rcases q with _ | ⟨j0, rest⟩
    · rw [hq] at h
      exact absurd h (by simp)
    · rw [hq] at h
      simp only [Option.some.injEq] at h
      subst h
      simp only [hq]
      refine ⟨lookupL_insertL_self _ _ _, Nat.le_add_right _ _, ?_⟩
      intro hd
      omega

theorem lease_expiry_ge_witness :
    ((dequeue (enqueue Scheduler.new "k" "p" 0).2 "k" 5 100).1 =
      some ⟨1, "k", "p", 0, 1⟩) ∧
    (lookupL (dequeue (enqueue Scheduler.new "k" "p" 0).2 "k" 5 100).2.leased 1 =
      some ⟨⟨1, "k", "p", 0, 1⟩, 105⟩ ∧ 100 ≤ 105 ∧ (0 < 5 → 100 < 105)) :=
  ⟨by decide,
    lease_expiry_ge (enqueue Scheduler.new "k" "p" 0).2 "k" 5 100
      ⟨1, "k", "p", 0, 1⟩ (by decide)⟩

/-- C1 counterexample: on a queue whose head job already has
`attempts = u32::MAX`, `dequeue` returns the job with `attempts` unchanged
(saturating add), not incremented by exactly one. -/
theorem dequeue_increment_cex :
    ((dequeue
        { next_id := 2, queued := [("k", [⟨1, "k", "p", 0, u32Max⟩])],
          leased := [], done := [], failed := [], default_kind := "default" }
        "k" 5 100).1.map Job.attempts) = some u32Max ∧
    some u32Max ≠ some (u32Max + 1) := by
  decide

/-- C1 (amended): `enqueue` appends at the tail of the kind's queue and
`dequeue` pops its head (FIFO, oldest first); `dequeue` returns `none` (not an
error) when the kind is unknown or its queue is empty; the popped job's
`attempts` is incremented by one, saturating at `u32::MAX`; a lease for the
popped job, keyed by its job id, is inserted with
`expires_at = now + lease_duration`. -/
theorem dequeue_fifo_lease (s : Scheduler) (kind payload : String)
    (d now tE : Nat) :
    (lookupQ (enqueue s kind payload tE).2.queued kind =
      some ((lookupQ s.queued kind).getD [] ++ [⟨s.next_id, kind, payload, tE, 0⟩])) ∧
    (lookupQ s.queued kind = none → dequeue s kind d now = (none, s)) ∧
    (lookupQ s.queued kind = some [] → dequeue s kind d now = (none, s)) ∧
    (∀ j rest, lookupQ s.queued kind = some (j :: rest) →
      dequeue s kind d now =
        (some { j with attempts := satAdd1 j.attempts },
          { s with queued := setQ s.queued kind rest,
                   leased := insertL s.leased j.id
                     ⟨{ j with attempts := satAdd1 j.attempts }, now + d⟩ }) ∧
      lookupL (dequeue s kind d now).2.leased j.id =
        some ⟨{ j with attempts := satAdd1 j.attempts }, now + d⟩) := by
  refine ⟨?_, ?_, ?_, ?_⟩
  · unfold enqueue
    simp only
    exact lookupQ_pushQueue_self s.queued kind _
  · intro h
    unfold dequeue
    rw [h]
  · intro h
    unfold dequeue
    rw [h]
  · intro j rest h
    unfold dequeue
    rw [h]
    simp only [true_and]
    exact lookupL_insertL_self _ _ _

theorem dequeue_fifo_lease_witness :
    (lookupQ (enqueue Scheduler.new "email" "A" 3).2.queued "email" =
      some ((lookupQ Scheduler.new.queued "email").getD [] ++
        [⟨1, "email", "A", 3, 0⟩])) ∧
    (lookupQ Scheduler.new.queued "other" = none ∧
      dequeue Scheduler.new "other" 5 10 = (none, Scheduler.new)) ∧
    (lookupQ (enqueue Scheduler.new "email" "A" 3).2.queued "email" =
        some (⟨1, "email", "A", 3, 0⟩ :: []) ∧
      dequeue (enqueue Scheduler.new "email" "A" 3).2 "email" 5 10 =
        (some { Job.mk 1 "email" "A" 3 0 with attempts := satAdd1 0 },
          { (enqueue Scheduler.new "email" "A" 3).2 with
              queued := setQ (enqueue Scheduler.new "email" "A" 3).2.queued
                "email" [],
              leased := insertL (enqueue Scheduler.new "email" "A" 3).2.leased 1
                ⟨{ Job.mk 1 "email" "A" 3 0 with attempts := satAdd1 0 }, 15⟩ })) :=
  ⟨(dequeue_fifo_lease Scheduler.new "email" "A" 5 10 3).1,
   ⟨by decide, (dequeue_fifo_lease Scheduler.new "other" "A" 5 10 3).2.1 (by decide)⟩,
   ⟨by decide,
    ((dequeue_fifo_lease (enqueue Scheduler.new "email" "A" 3).2 "email" "A" 5
        10 3).2.2.2 (Job.mk 1 "email" "A" 3 0) [] (by decide)).1⟩⟩

/-- C4 counterexample: a leased job whose `attempts` is already `u32::MAX` is
re-enqueued by `fail`, and the subsequent `dequeue` returns it with `attempts`
unchanged (saturating add), not incremented to `u32::MAX + 1`. -/
theorem fail_then_dequeue_cex :
    ((dequeue
        (fail
          { next_id := 2, queued := [],
            leased := [(1, ⟨⟨1, "k", "p", 0, u32Max⟩, 50⟩)], done := [],
            failed := [], default_kind := "default" } 1).2
        "k" 5 100).1.map Job.attempts) = some u32Max ∧
    some u32Max ≠ some (u32Max + 1) := by
  decide

/-- C4 (amended): for a job id with an active lease, `fail(id)` removes the
lease, re-enqueues the leased job at the tail of its own kind's queue and
records it in the failed history; a subsequent `dequeue` of that kind (queue
otherwise empty, no intervening enqueues) returns the same job with `attempts`
incremented again, saturating at `u32::MAX` (e.g. 1 to 2). -/
theorem fail_reenqueue (s : Scheduler) (id : Nat) (lease : Lease) (d now : Nat)
    (h : lookupL s.leased id = some lease) :
    fail s id =
      (Except.ok (), { s with leased := (removeL s.leased id).2,
                              queued := pushQueue s.queued lease.job.kind lease.job,
                              failed := s.failed ++ [lease.job] }) ∧
    ((lookupQ s.queued lease.job.kind).getD [] = [] →
      (dequeue (fail s id).2 lease.job.kind d now).1 =
        some { lease.job with attempts := satAdd1 lease.job.attempts } ∧
      (lease.job.attempts = 1 →
        ({ lease.job with attempts := satAdd1 lease.job.attempts } : Job).attempts
          = 2)) := by
  have hok := fail_ok_of_leased s id lease h
  refine ⟨hok, ?_⟩
  intro hq
  have hq' : lookupQ (fail s id).2.queued lease.job.kind = some [lease.job] := by
    rw [hok]
    simp only
    rw [lookupQ_pushQueue_self, hq]
    simp
  constructor
  · unfold dequeue
    rw [hq']
  · intro h1
    simp only [h1]
    rfl

theorem fail_reenqueue_witness :
    (lookupL (dequeue (enqueue Scheduler.new "k" "p" 0).2 "k" 5 10).2.leased 1 =
        some ⟨⟨1, "k", "p", 0, 1⟩, 15⟩ ∧
      (lookupQ (dequeue (enqueue Scheduler.new "k" "p" 0).2 "k" 5
        10).2.queued "k").getD [] = []) ∧
    ((dequeue
        (fail (dequeue (enqueue Scheduler.new "k" "p" 0).2 "k" 5 10).2 1).2
        "k" 7 20).1 =
          some { Job.mk 1 "k" "p" 0 1 with attempts := satAdd1 1 } ∧
      ((Job.mk 1 "k" "p" 0 1).attempts = 1 →
        ({ Job.mk 1 "k" "p" 0 1 with attempts := satAdd1 1 } : Job).attempts = 2)) :=
  ⟨⟨by decide, by decide⟩,
    (fail_reenqueue (dequeue (enqueue Scheduler.new "k" "p" 0).2 "k" 5 10).2 1
        ⟨⟨1, "k", "p", 0, 1⟩, 15⟩ 7 20 (by decide)).2 (by decide)⟩

/-! ### C2: reclaim_expired -/

theorem removeL_append_not_mem (pre : List (Nat × Lease)) (k : Nat)
    (lease : Lease) (rest : List (Nat × Lease)) (h : k ∉ pre.map Prod.fst) :
    removeL (pre ++ (k, lease) :: rest) k = (some lease, pre ++ rest) := by
  induction pre with
  | nil => simp [removeL]
  | cons p tl ih =>
    obtain ⟨k0, l0⟩ := p
    simp only [List.map_cons, List.mem_cons, not_or] at h
    simp only [List.cons_append, removeL, if_neg (fun hk : k0 = k => h.1 hk.symm),
      List.append_eq]
    rw [ih h.2]

theorem reclaim_foldl_aux (now : Nat) :
    ∀ (l pre : List (Nat × Lease)) (s : Scheduler),
    s.leased = pre ++ l → (((pre ++ l).map Prod.fst).Nodup) →
    (((l.filter (fun p => decide (p.2.expires_at ≤ now))).map Prod.fst).foldl
        reclaimStep s) =
      { s with
          leased := pre ++ l.filter (fun p => !decide (p.2.expires_at ≤ now)),
          queued := (l.filter (fun p => decide (p.2.expires_at ≤ now))).foldl
            (fun q p => pushQueue q p.2.job.kind p.2.job) s.queued } := by
  intro l
  induction l with
  | nil =>
    intro pre s hs hnd
    rw [List.append_nil] at hs
    simp only [List.filter_nil, List.map_nil, List.foldl_nil, List.append_nil, ← hs]
  | cons p rest ih =>
    intro pre s hs hnd
    obtain ⟨k, lease⟩ := p
    by_cases hexp : lease.expires_at ≤ now
    · have hknotpre : k ∉ pre.map Prod.fst := by
        intro hmem
        have hnd2 : (pre.map Prod.fst ++ (k :: rest.map Prod.fst)).Nodup := by
          have h3 := hnd
          rw [List.map_append, List.map_cons] at h3
          exact h3
        exact (List.disjoint_of_nodup_append hnd2) hmem (by simp)
      have hrem : removeL s.leased k = (some lease, pre ++ rest) := by
        rw [hs]; exact removeL_append_not_mem pre k lease rest hknotpre
      have hstep : reclaimStep s k =
          { s with leased := pre ++ rest,
                   queued := pushQueue s.queued lease.job.kind lease.job } := by
        unfold reclaimStep
        rw [hrem]
      simp only [List.filter_cons, decide_eq_true_eq, hexp, if_true,
        List.map_cons, List.foldl_cons]
      rw [hstep]
      have hnd' : (((pre ++ rest).map Prod.fst).Nodup) := by
        rw [List.map_append] at hnd ⊢
        rw [List.map_cons] at hnd
        exact List.Nodup.append
          (List.Nodup.of_append_left hnd)
          (List.Nodup.of_cons (List.Nodup.of_append_right hnd))
          (fun a ha hb => (List.disjoint_of_nodup_append hnd) ha (by simp [hb]))
      have := ih pre
        { s with leased := pre ++ rest,
                 queued := pushQueue s.queued lease.job.kind lease.job }
        rfl hnd'
      rw [this]
      simp [hexp]
    · simp only [List.filter_cons, decide_eq_true_eq, hexp, if_false]
      have hs' : s.leased = (pre ++ [(k, lease)]) ++ rest := by
        rw [hs]; simp
      have hnd' : (((pre ++ [(k, lease)] ++ rest).map Prod.fst).Nodup) := by
        have : pre ++ [(k, lease)] ++ rest = pre ++ (k, lease) :: rest := by simp
        rw [this]; exact hnd
      have := ih (pre ++ [(k, lease)]) s hs' hnd'
      rw [this]
      simp [hexp]

/-- C2: `reclaim_expired` removes exactly the leases with
`expires_at <= now`, re-enqueueing each removed lease's job (unchanged, so
`attempts` untouched) at the tail of its kind's queue; `done`, `failed` and
`next_id` are untouched. For a single job leased with duration `D` at `t1`,
running `reclaim_expired` at `t1 + D` brings `leased_count` back to 0 and
`depth` up to 1, and a following `dequeue` yields the same job id with
`attempts` incremented exactly once more (1 to 2, not 3). -/
theorem reclaim_expired_spec (s : Scheduler) (now : Nat)
    (kind payload : String) (t0 t1 D d2 t2 : Nat)
    (hnd : (s.leased.map Prod.fst).Nodup) :
    (reclaim_expired s now =
      { s with
          leased := s.leased.filter (fun p => !decide (p.2.expires_at ≤ now)),
          queued := (s.leased.filter (fun p => decide (p.2.expires_at ≤ now))).foldl
            (fun q p => pushQueue q p.2.job.kind p.2.job) s.queued }) ∧
    ((reclaim_expired s now).failed = s.failed ∧
      (reclaim_expired s now).done = s.done ∧
      (reclaim_expired s now).next_id = s.next_id) ∧
    (leased_count (dequeue (enqueue Scheduler.new kind payload t0).2 kind D
        t1).2 = 1 ∧
      depth (dequeue (enqueue Scheduler.new kind payload t0).2 kind D t1).2 = 0 ∧
      leased_count (reclaim_expired
        (dequeue (enqueue Scheduler.new kind payload t0).2 kind D t1).2
        (t1 + D)) = 0 ∧
      depth (reclaim_expired
        (dequeue (enqueue Scheduler.new kind payload t0).2 kind D t1).2
        (t1 + D)) = 1 ∧
      (dequeue (reclaim_expired
          (dequeue (enqueue Scheduler.new kind payload t0).2 kind D t1).2
          (t1 + D)) kind d2 t2).1 = some ⟨1, kind, payload, t0, 2⟩) := by
  have hmain : reclaim_expired s now =
      { s with
          leased := s.leased.filter (fun p => !decide (p.2.expires_at ≤ now)),
          queued := (s.leased.filter (fun p => decide (p.2.expires_at ≤ now))).foldl
            (fun q p => pushQueue q p.2.job.kind p.2.job) s.queued } := by
    unfold reclaim_expired
    exact reclaim_foldl_aux now s.leased [] s (by simp) (by simpa using hnd)
  have hs1 : satAdd1 0 = 1 := rfl
  have hs2 : satAdd1 1 = 2 := rfl
  refine ⟨hmain, ⟨by rw [hmain], by rw [hmain], by rw [hmain]⟩, ?_⟩
  simp [Scheduler.new, enqueue, dequeue, reclaim_expired, reclaimStep, lookupQ,
    pushQueue, setQ, insertL, removeL, depth, leased_count, hs1, hs2,
    List.filter]

theorem reclaim_expired_spec_witness :
    ((((dequeue (enqueue Scheduler.new "email" "A" 2).2 "email" 5 10).2.leased.map
        Prod.fst).Nodup)) ∧
    (reclaim_expired (dequeue (enqueue Scheduler.new "email" "A" 2).2 "email" 5
        10).2 15 =
      { (dequeue (enqueue Scheduler.new "email" "A" 2).2 "email" 5 10).2 with
          leased := (dequeue (enqueue Scheduler.new "email" "A" 2).2 "email" 5
            10).2.leased.filter (fun p => !decide (p.2.expires_at ≤ 15)),
          queued := ((dequeue (enqueue Scheduler.new "email" "A" 2).2 "email" 5
            10).2.leased.filter (fun p => decide (p.2.expires_at ≤ 15))).foldl
            (fun q p => pushQueue q p.2.job.kind p.2.job)
            (dequeue (enqueue Scheduler.new "email" "A" 2).2 "email" 5
              10).2.queued }) ∧
    leased_count (reclaim_expired
      (dequeue (enqueue Scheduler.new "email" "A" 2).2 "email" 5 10).2
      (10 + 5)) = 0 ∧
    depth (reclaim_expired
      (dequeue (enqueue Scheduler.new "email" "A" 2).2 "email" 5 10).2
      (10 + 5)) = 1 ∧
    (dequeue (reclaim_expired
        (dequeue (enqueue Scheduler.new "email" "A" 2).2 "email" 5 10).2
        (10 + 5)) "email" 9 99).1 = some ⟨1, "email", "A", 2, 2⟩ :=
  ⟨by decide,
   (reclaim_expired_spec (dequeue (enqueue Scheduler.new "email" "A" 2).2
      "email" 5 10).2 15 "email" "A" 2 10 5 9 99 (by decide)).1,
   ((reclaim_expired_spec (dequeue (enqueue Scheduler.new "email" "A" 2).2
      "email" 5 10).2 15 "email" "A" 2 10 5 9 99 (by decide)).2.2).2.2.1,
   ((reclaim_expired_spec (dequeue (enqueue Scheduler.new "email" "A" 2).2
      "email" 5 10).2 15 "email" "A" 2 10 5 9 99 (by decide)).2.2).2.2.2.1,
   ((reclaim_expired_spec (dequeue (enqueue Scheduler.new "email" "A" 2).2
      "email" 5 10).2 15 "email" "A" 2 10 5 9 99 (by decide)).2.2).2.2.2.2⟩

/-! ### C5: id uniqueness and queue/lease exclusivity on reachable states -/

/-- One public scheduler operation, with the clock readings it would make. -/
inductive Op where
  | enqueue (kind payload : String) (now : Nat)
  | enqueue_default (payload : String) (now : Nat)
  | dequeue (kind : String) (lease_duration now : Nat)
  | complete (id : Nat)
  | fail (id : Nat)
  | reclaim (now : Nat)

/-- Run one operation, keeping only the state. -/
def applyOp (s : Scheduler) : Op → Scheduler
  | Op.enqueue k p now => (enqueue s k p now).2
  | Op.enqueue_default p now => (enqueue_default s p now).2
  | Op.dequeue k d now => (dequeue s k d now).2
  | Op.complete id => (complete s id).2
  | Op.fail id => (fail s id).2
  | Op.reclaim now => reclaim_expired s now

/-- The job ids an operation returns to the caller (enqueue only). -/
def returnedIds (s : Scheduler) : Op → List Nat
  | Op.enqueue k p now => [(enqueue s k p now).1]
  | Op.enqueue_default p now => [(enqueue_default s p now).1]
  | _ => []

/-- Run a sequence of operations from a state. -/
def runOps : Scheduler → List Op → Scheduler
  | s, [] => s
  | s, op :: rest => runOps (applyOp s op) rest

/-- The ids handed out by the enqueues of a run, in order. -/
def runIds : Scheduler → List Op → List Nat
  | _, [] => []
  | s, op :: rest => returnedIds s op ++ runIds (applyOp s op) rest

/-- All jobs sitting in the kind queues. -/
def qJobs (q : List (String × List Job)) : List Job := (q.map Prod.snd).flatten

/-- Ids of all queued jobs. -/
def qIds (s : Scheduler) : List Nat := (qJobs s.queued).map Job.id

/-- Ids keying the lease table. -/
def lIds (s : Scheduler) : List Nat := s.leased.map Prod.fst

/-- Ids present in a kind queue or in the lease table. -/
def allIds (s : Scheduler) : List Nat := qIds s ++ lIds s

/-- Representation and freshness invariant of a scheduler state. -/
def SchedInv (s : Scheduler) : Prop :=
  (∀ i ∈ allIds s, i < s.next_id) ∧
  (allIds s).Nodup ∧
  (s.queued.map Prod.fst).Nodup ∧
  (s.leased.map Prod.fst).Nodup ∧
  (∀ p ∈ s.leased, p.2.job.id = p.1)

theorem qJobs_pushQueue (q : List (String × List Job)) (kind : String) (j : Job) :
    List.Perm (qJobs (pushQueue q kind j)) (j :: qJobs q) := by
  induction q with
  | nil => simp [pushQueue, qJobs]
  | cons p tl ih =>
    obtain ⟨k, jobs⟩ := p
    by_cases hk : k = kind
    · simp only [pushQueue, if_pos hk, qJobs, List.map_cons, List.flatten_cons]
      rw [List.append_assoc]
      exact List.perm_middle
    · simp only [pushQueue, if_neg hk, qJobs, List.map_cons, List.flatten_cons] at ih ⊢
      exact ((ih.append_left jobs)).trans List.perm_middle

theorem qJobs_setQ_pop (q : List (String × List Job)) (kind : String) (j : Job)
    (rest : List Job) (h : lookupQ q kind = some (j :: rest)) :
    List.Perm (qJobs q) (j :: qJobs (setQ q kind rest)) := by
  induction q with
  | nil => exact absurd h (by simp [lookupQ])
  | cons p tl ih =>
    obtain ⟨k, jobs⟩ := p
    by_cases hk : k = kind
    · rw [lookupQ, if_pos hk] at h
      injection h with h
      subst h
      simp only [setQ, if_pos hk, qJobs, List.map_cons, List.flatten_cons,
        List.cons_append]
      exact List.Perm.refl _
    · rw [lookupQ, if_neg hk] at h
      simp only [setQ, if_neg hk, qJobs, List.map_cons, List.flatten_cons] at ih ⊢
      exact ((ih h).append_left jobs).trans List.perm_middle

theorem setQ_keys (q : List (String × List Job)) (kind : String) (v : List Job) :
    (setQ q kind v).map Prod.fst = q.map Prod.fst := by
  induction q with
  | nil => rfl
  | cons p tl ih =>
    obtain ⟨k, jobs⟩ := p
    by_cases hk : k = kind <;> simp [setQ, hk, ih]

theorem pushQueue_keys_sub (q : List (String × List Job)) (kind : String)
    (j : Job) :
    ∀ x ∈ (pushQueue q kind j).map Prod.fst, x = kind ∨ x ∈ q.map Prod.fst := by
  induction q with
  | nil => simp [pushQueue]
  | cons p tl ih =>
    obtain ⟨k, jobs⟩ := p
    intro x hx
    by_cases hk : k = kind
    · simp only [pushQueue, if_pos hk, List.map_cons, List.mem_cons] at hx ⊢
      tauto
    · simp only [pushQueue, if_neg hk, List.map_cons, List.mem_cons] at hx ⊢
      rcases hx with h | h
      · tauto
      · rcases ih x h with h2 | h2 <;> tauto

theorem pushQueue_keys_nodup (q : List (String × List Job)) (kind : String)
    (j : Job) (h : (q.map Prod.fst).Nodup) :
    ((pushQueue q kind j).map Prod.fst).Nodup := by
  induction q with
  | nil => simp [pushQueue]
  | cons p tl ih =>
    obtain ⟨k, jobs⟩ := p
    simp only [List.map_cons, List.nodup_cons] at h
    by_cases hk : k = kind
    · simp only [pushQueue, if_pos hk, List.map_cons, List.nodup_cons]
      exact ⟨h.1, h.2⟩
    · simp only [pushQueue, if_neg hk, List.map_cons, List.nodup_cons]
      refine ⟨?_, ih h.2⟩
      intro hmem
      rcases pushQueue_keys_sub tl kind j k hmem with h2 | h2
      · exact hk h2
      · exact h.1 h2

theorem insertL_not_mem (l : List (Nat × Lease)) (id : Nat) (lease : Lease)
    (h : id ∉ l.map Prod.fst) : insertL l id lease = l ++ [(id, lease)] := by
  induction l with
  | nil => rfl
  | cons p tl ih =>
    obtain ⟨k, l0⟩ := p
    simp only [List.map_cons, List.mem_cons, not_or] at h
    simp only [insertL, if_neg (fun hk : k = id => h.1 hk.symm), List.cons_append]
    rw [ih h.2]

theorem removeL_some_spec (l : List (Nat × Lease)) (id : Nat) (lease : Lease)
    (rest : List (Nat × Lease)) (h : removeL l id = (some lease, rest)) :
    (id, lease) ∈ l ∧
    List.Perm (l.map Prod.fst) (id :: rest.map Prod.fst) ∧
    (∀ p ∈ rest, p ∈ l) := by
  induction l generalizing rest with
  | nil => exact absurd h (by simp [removeL])
  | cons p tl ih =>
    obtain ⟨k, l0⟩ := p
    by_cases hk : k = id
    · rw [removeL, if_pos hk] at h
      injection h with h1 h2
      injection h1 with h1
      subst h1; subst h2; subst hk
      refine ⟨by simp, by simp, ?_⟩
      intro p hp
      exact List.mem_cons_of_mem _ hp
    · rw [removeL, if_neg hk] at h
      injection h with h1 h2
      rcases hrec : removeL tl id with ⟨o, tl2⟩
      rw [hrec] at h1 h2
      simp only at h1 h2
      subst h2
      have := ih tl2 (by rw [hrec, h1])
      refine ⟨List.mem_cons_of_mem _ this.1, ?_, ?_⟩
      · simp only [List.map_cons]
        exact (List.Perm.cons k this.2.1).trans (List.Perm.swap id k _)
      · intro p hp
        rcases List.mem_cons.1 hp with h3 | h3
        · exact List.mem_cons.2 (Or.inl h3)
        · exact List.mem_cons_of_mem _ (this.2.2 p h3)

theorem qJobs_foldl_push (entries : List (Nat × Lease)) :
    ∀ q : List (String × List Job),
    List.Perm
      (qJobs (entries.foldl (fun q p => pushQueue q p.2.job.kind p.2.job) q))
      (entries.map (fun p => p.2.job) ++ qJobs q) := by
  induction entries with
  | nil => intro q; simp
  | cons e tl ih =>
    intro q
    simp only [List.foldl_cons, List.map_cons]
    exact ((ih (pushQueue q e.2.job.kind e.2.job)).trans
      (((qJobs_pushQueue q e.2.job.kind e.2.job).append_left _).trans
        List.perm_middle))

theorem keys_foldl_push_nodup (entries : List (Nat × Lease)) :
    ∀ q : List (String × List Job), (q.map Prod.fst).Nodup →
    (((entries.foldl (fun q p => pushQueue q p.2.job.kind p.2.job) q).map
      Prod.fst).Nodup) := by
  induction entries with
  | nil => intro q h; exact h
  | cons e tl ih =>
    intro q h
    exact ih _ (pushQueue_keys_nodup q e.2.job.kind e.2.job h)

theorem inv_enqueue (s : Scheduler) (kind payload : String) (now : Nat)
    (h : SchedInv s) : SchedInv (enqueue s kind payload now).2 := by
  obtain ⟨hbound, hnodup, hqk, hlk, hkey⟩ := h
  have hq : List.Perm (qIds (enqueue s kind payload now).2)
      (s.next_id :: qIds s) :=
    (qJobs_pushQueue s.queued kind ⟨s.next_id, kind, payload, now, 0⟩).map Job.id
  have hall : List.Perm (allIds (enqueue s kind payload now).2)
      (s.next_id :: allIds s) := by
    unfold allIds
    have : lIds (enqueue s kind payload now).2 = lIds s := rfl
    rw [this]
    exact hq.append_right (lIds s)
  refine ⟨?_, ?_, ?_, hlk, hkey⟩
  · intro i hi
    have : i ∈ s.next_id :: allIds s := hall.mem_iff.mp hi
    rcases List.mem_cons.1 this with h1 | h1
    · subst h1
      exact Nat.lt_succ_self _
    · exact Nat.lt_succ_of_lt (hbound i h1)
  · rw [hall.nodup_iff, List.nodup_cons]
    exact ⟨fun hmem => Nat.lt_irrefl _ (hbound _ hmem), hnodup⟩
  · exact pushQueue_keys_nodup s.queued kind _ hqk

theorem inv_dequeue (s : Scheduler) (kind : String) (d now : Nat)
    (h : SchedInv s) : SchedInv (dequeue s kind d now).2 := by
  obtain ⟨hbound, hnodup, hqk, hlk, hkey⟩ := h
  rcases hq : lookupQ s.queued kind with _ | q
  · unfold dequeue
    rw [hq]
    exact ⟨hbound, hnodup, hqk, hlk, hkey⟩
  rcases q with _ | ⟨j, rest⟩
  · unfold dequeue
    rw [hq]
    exact ⟨hbound, hnodup, hqk, hlk, hkey⟩
  have hperm : List.Perm (qIds s) (j.id :: qIds { s with
      queued := setQ s.queued kind rest }) :=
    (qJobs_setQ_pop s.queued kind j rest hq).map Job.id
  have hjq : j.id ∈ qIds s := hperm.mem_iff.mpr (by simp)
  have hjl : j.id ∉ lIds s := by
    intro hmem
    have := hnodup
    unfold allIds at this
    exact (List.disjoint_of_nodup_append this) hjq hmem
  have hins : insertL s.leased j.id
      ⟨{ j with attempts := satAdd1 j.attempts }, now + d⟩ =
        s.leased ++ [(j.id, ⟨{ j with attempts := satAdd1 j.attempts }, now + d⟩)] :=
    insertL_not_mem s.leased j.id _ hjl
  have hstate : (dequeue s kind d now).2 =
      { s with queued := setQ s.queued kind rest,
               leased := s.leased ++
                 [(j.id, ⟨{ j with attempts := satAdd1 j.attempts }, now + d⟩)] } := by
    unfold dequeue
    rw [hq]
    simp only
    rw [hins]
  rw [hstate]
  have hallperm : List.Perm
      (allIds { s with queued := setQ s.queued kind rest,
                       leased := s.leased ++
                         [(j.id, ⟨{ j with attempts := satAdd1 j.attempts },
                           now + d⟩)] })
      (allIds s) := by
    unfold allIds lIds qIds
    simp only [List.map_append, List.map_cons, List.map_nil]
    have h1 : List.Perm
        ((qJobs (setQ s.queued kind rest)).map Job.id ++
          (s.leased.map Prod.fst ++ [j.id]))
        (j.id :: ((qJobs (setQ s.queued kind rest)).map Job.id ++
          s.leased.map Prod.fst)) := by
      rw [← List.append_assoc]
      exact List.perm_append_singleton _ _
    have h2 : List.Perm
        ((j.id :: (qJobs (setQ s.queued kind rest)).map Job.id) ++
          s.leased.map Prod.fst)
        ((qJobs s.queued).map Job.id ++ s.leased.map Prod.fst) :=
      List.Perm.append_right _ hperm.symm
    exact h1.trans h2
  refine ⟨?_, ?_, ?_, ?_, ?_⟩
  · intro i hi
    exact hbound i (hallperm.mem_iff.mp hi)
  · exact hallperm.nodup_iff.mpr hnodup
  · simp only
    rw [setQ_keys]
    exact hqk
  · simp only [List.map_append, List.map_cons, List.map_nil]
    refine List.Nodup.append hlk (by simp) ?_
    intro a ha hb
    simp only [List.mem_singleton] at hb
    subst hb
    exact hjl ha
  · intro p hp
    simp only [List.mem_append, List.mem_singleton] at hp
    rcases hp with hp | hp
    · exact hkey p hp
    · subst hp
      rfl

theorem inv_complete (s : Scheduler) (id : Nat) (h : SchedInv s) :
    SchedInv (complete s id).2 := by
  obtain ⟨hbound, hnodup, hqk, hlk, hkey⟩ := h
  rcases hr : removeL s.leased id with ⟨opt, rest⟩
  rcases opt with _ | lease
  · have : (complete s id).2 = s := by
      unfold complete
      rw [hr]
    rw [this]
    exact ⟨hbound, hnodup, hqk, hlk, hkey⟩
  · obtain ⟨hmem, hkperm, hsub⟩ := removeL_some_spec s.leased id lease rest hr
    have hstate : (complete s id).2 =
        { s with leased := rest, done := s.done ++ [lease.job] } := by
      unfold complete
      rw [hr]
    rw [hstate]
    have hsubl : List.Sublist
        (allIds { s with leased := rest, done := s.done ++ [lease.job] })
        (qIds s ++ (id :: lIds
          { s with leased := rest, done := s.done ++ [lease.job] })) := by
      unfold allIds
      exact List.Sublist.append_left (List.sublist_cons_self _ _) _
    have hperm2 : List.Perm (qIds s ++ lIds s)
        (qIds s ++ (id :: rest.map Prod.fst)) :=
      List.Perm.append_left _ hkperm
    refine ⟨?_, ?_, hqk, ?_, ?_⟩
    · intro i hi
      have : i ∈ qIds s ++ (id :: rest.map Prod.fst) :=
        hsubl.mem hi
      exact hbound i (hperm2.symm.mem_iff.mp this)
    · exact List.Nodup.sublist hsubl (hperm2.nodup_iff.mp hnodup)
    · exact (List.nodup_cons.1 ((hkperm.nodup_iff).mp hlk)).2
    · intro p hp
      exact hkey p (hsub p hp)

theorem inv_fail (s : Scheduler) (id : Nat) (h : SchedInv s) :
    SchedInv (fail s id).2 := by
  obtain ⟨hbound, hnodup, hqk, hlk, hkey⟩ := h
  rcases hr : removeL s.leased id with ⟨opt, rest⟩
  rcases opt with _ | lease
  · have : (fail s id).2 = s := by
      unfold fail
      rw [hr]
    rw [this]
    exact ⟨hbound, hnodup, hqk, hlk, hkey⟩
  · obtain ⟨hmem, hkperm, hsub⟩ := removeL_some_spec s.leased id lease rest hr
    have hjid : lease.job.id = id := hkey (id, lease) hmem
    have hstate : (fail s id).2 =
        { s with leased := rest,
                 queued := pushQueue s.queued lease.job.kind lease.job,
                 failed := s.failed ++ [lease.job] } := by
      unfold fail
      rw [hr]
    rw [hstate]
    have hqperm : List.Perm
        (qIds { s with leased := rest,
                       queued := pushQueue s.queued lease.job.kind lease.job,
                       failed := s.failed ++ [lease.job] })
        (id :: qIds s) := by
      have := (qJobs_pushQueue s.queued lease.job.kind lease.job).map Job.id
      rw [List.map_cons, hjid] at this
      exact this
    have hallperm : List.Perm
        (allIds { s with leased := rest,
                         queued := pushQueue s.queued lease.job.kind lease.job,
                         failed := s.failed ++ [lease.job] })
        (allIds s) := by
      unfold allIds
      have h1 : List.Perm
          (qIds { s with leased := rest,
                         queued := pushQueue s.queued lease.job.kind lease.job,
                         failed := s.failed ++ [lease.job] } ++
            lIds { s with leased := rest,
                          queued := pushQueue s.queued lease.job.kind lease.job,
                          failed := s.failed ++ [lease.job] })
          ((id :: qIds s) ++ rest.map Prod.fst) :=
        List.Perm.append_right _ hqperm
      have h2 : List.Perm (qIds s ++ lIds s)
          (id :: (qIds s ++ rest.map Prod.fst)) :=
        (List.Perm.append_left _ hkperm).trans List.perm_middle
      exact h1.trans h2.symm
    refine ⟨?_, ?_, ?_, ?_, ?_⟩
    · intro i hi
      exact hbound i (hallperm.mem_iff.mp hi)
    · exact hallperm.nodup_iff.mpr hnodup
    · exact pushQueue_keys_nodup s.queued lease.job.kind lease.job hqk
    · exact (List.nodup_cons.1 ((hkperm.nodup_iff).mp hlk)).2
    · intro p hp
      exact hkey p (hsub p hp)

theorem inv_reclaim (s : Scheduler) (now : Nat) (h : SchedInv s) :
    SchedInv (reclaim_expired s now) := by
  obtain ⟨hbound, hnodup, hqk, hlk, hkey⟩ := h
  have hmain : reclaim_expired s now =
      { s with
          leased := s.leased.filter (fun p => !decide (p.2.expires_at ≤ now)),
          queued := (s.leased.filter (fun p => decide (p.2.expires_at ≤ now))).foldl
            (fun q p => pushQueue q p.2.job.kind p.2.job) s.queued } := by
    unfold reclaim_expired
    exact reclaim_foldl_aux now s.leased [] s (by simp) (by simpa using hlk)
  rw [hmain]
  have hqperm : List.Perm
      (qIds { s with
          leased := s.leased.filter (fun p => !decide (p.2.expires_at ≤ now)),
          queued := (s.leased.filter (fun p => decide (p.2.expires_at ≤ now))).foldl
            (fun q p => pushQueue q p.2.job.kind p.2.job) s.queued })
      ((s.leased.filter (fun p => decide (p.2.expires_at ≤ now))).map Prod.fst ++
        qIds s) := by
    have hp := (qJobs_foldl_push
      (s.leased.filter (fun p => decide (p.2.expires_at ≤ now))) s.queued).map
        Job.id
    rw [List.map_append, List.map_map] at hp
    have hc : (s.leased.filter (fun p => decide (p.2.expires_at ≤ now))).map
        (Job.id ∘ fun p => p.2.job) =
      (s.leased.filter (fun p => decide (p.2.expires_at ≤ now))).map Prod.fst := by
      refine List.map_congr_left ?_
      intro p hp2
      exact hkey p (List.mem_of_mem_filter hp2)
    rw [hc] at hp
    exact hp
  have hlperm : List.Perm
      ((s.leased.filter (fun p => decide (p.2.expires_at ≤ now))).map Prod.fst ++
        (s.leased.filter (fun p => !decide (p.2.expires_at ≤ now))).map Prod.fst)
      (lIds s) := by
    have := (List.filter_append_perm
      (fun p => decide (p.2.expires_at ≤ now)) s.leased).map Prod.fst
    rw [List.map_append] at this
    exact this
  have hallperm : List.Perm
      (allIds { s with
          leased := s.leased.filter (fun p => !decide (p.2.expires_at ≤ now)),
          queued := (s.leased.filter (fun p => decide (p.2.expires_at ≤ now))).foldl
            (fun q p => pushQueue q p.2.job.kind p.2.job) s.queued })
      (allIds s) := by
    unfold allIds
    have h1 := List.Perm.append_right
      ((s.leased.filter (fun p => !decide (p.2.expires_at ≤ now))).map Prod.fst)
      hqperm
    have h2 : List.Perm
        (((s.leased.filter (fun p => decide (p.2.expires_at ≤ now))).map
            Prod.fst ++ qIds s) ++
          (s.leased.filter (fun p => !decide (p.2.expires_at ≤ now))).map Prod.fst)
        (qIds s ++ lIds s) := by
      have hcomm : List.Perm
          ((s.leased.filter (fun p => decide (p.2.expires_at ≤ now))).map
            Prod.fst ++ qIds s)
          (qIds s ++ (s.leased.filter (fun p => decide (p.2.expires_at ≤
            now))).map Prod.fst) := List.perm_append_comm
      refine (hcomm.append_right _).trans ?_
      rw [List.append_assoc]
      exact List.Perm.append_left _ hlperm
    exact h1.trans h2
  refine ⟨?_, ?_, ?_, ?_, ?_⟩
  · intro i hi
    exact hbound i (hallperm.mem_iff.mp hi)
  · exact hallperm.nodup_iff.mpr hnodup
  · exact keys_foldl_push_nodup _ s.queued hqk
  · exact List.Nodup.sublist ((List.filter_sublist s.leased).map Prod.fst) hlk
  · intro p hp
    exact hkey p (List.mem_of_mem_filter hp)

theorem inv_applyOp (s : Scheduler) (op : Op) (h : SchedInv s) :
    SchedInv (applyOp s op) := by
  cases op with
  | enqueue k p now => exact inv_enqueue s k p now h
  | enqueue_default p now => exact inv_enqueue s s.default_kind p now h
  | dequeue k d now => exact inv_dequeue s k d now h
  | complete id => exact inv_complete s id h
  | fail id => exact inv_fail s id h
  | reclaim now => exact inv_reclaim s now h

theorem next_id_foldl_reclaimStep (ids : List Nat) :
    ∀ s : Scheduler, (ids.foldl reclaimStep s).next_id = s.next_id := by
  induction ids with
  | nil => intro s; rfl
  | cons i tl ih =>
    intro s
    rw [List.foldl_cons, ih]
    unfold reclaimStep
    rcases removeL s.leased i with ⟨opt, rest⟩
    rcases opt with _ | lease <;> rfl

theorem next_id_applyOp (s : Scheduler) (op : Op) :
    s.next_id ≤ (applyOp s op).next_id := by
  cases op with
  | enqueue k p now => exact Nat.le_succ _
  | enqueue_default p now => exact Nat.le_succ _
  | dequeue k d now =>
    show s.next_id ≤ (dequeue s k d now).2.next_id
    unfold dequeue
    rcases lookupQ s.queued k with _ | q
    · exact Nat.le_refl _
    · rcases q with _ | ⟨j, rest⟩ <;> exact Nat.le_refl _
  | complete id =>
    show s.next_id ≤ (complete s id).2.next_id
    unfold complete
    rcases removeL s.leased id with ⟨opt, rest⟩
    rcases opt with _ | lease <;> exact Nat.le_refl _
  | fail id =>
    show s.next_id ≤ (fail s id).2.next_id
    unfold fail
    rcases removeL s.leased id with ⟨opt, rest⟩
    rcases opt with _ | lease <;> exact Nat.le_refl _
  | reclaim now =>
    show s.next_id ≤ (reclaim_expired s now).next_id
    unfold reclaim_expired
    rw [next_id_foldl_reclaimStep]

theorem inv_runOps : ∀ (ops : List Op) (s : Scheduler), SchedInv s →
    SchedInv (runOps s ops) := by
  intro ops
  induction ops with
  | nil => intro s h; exact h
  | cons op rest ih =>
    intro s h
    exact ih (applyOp s op) (inv_applyOp s op h)

theorem runIds_pairwise : ∀ (ops : List Op) (s : Scheduler), SchedInv s →
    (runIds s ops).Pairwise (· < ·) ∧ ∀ i ∈ runIds s ops, s.next_id ≤ i := by
  intro ops
  induction ops with
  | nil => intro s h; exact ⟨List.Pairwise.nil, by simp [runIds]⟩
  | cons op rest ih =>
    intro s h
    have hinv' := inv_applyOp s op h
    have ih' := ih (applyOp s op) hinv'
    cases op with
    | enqueue k p now =>
      have hids : runIds s (Op.enqueue k p now :: rest) =
          s.next_id :: runIds (applyOp s (Op.enqueue k p now)) rest := rfl
      have hnext : (applyOp s (Op.enqueue k p now)).next_id = s.next_id + 1 := rfl
      rw [hids]
      constructor
      · refine List.Pairwise.cons ?_ ih'.1
        intro i hi
        have := ih'.2 i hi
        rw [hnext] at this
        omega
      · intro i hi
        rcases List.mem_cons.1 hi with h1 | h1
        · omega
        · have := ih'.2 i h1
          rw [hnext] at this
          omega
    | enqueue_default p now =>
      have hids : runIds s (Op.enqueue_default p now :: rest) =
          s.next_id :: runIds (applyOp s (Op.enqueue_default p now)) rest := rfl
      have hnext : (applyOp s (Op.enqueue_default p now)).next_id =
          s.next_id + 1 := rfl
      rw [hids]
      constructor
      · refine List.Pairwise.cons ?_ ih'.1
        intro i hi
        have := ih'.2 i hi
        rw [hnext] at this
        omega
      · intro i hi
        rcases List.mem_cons.1 hi with h1 | h1
        · omega
        · have := ih'.2 i h1
          rw [hnext] at this
          omega
    | dequeue k d now =>
      have hmono := next_id_applyOp s (Op.dequeue k d now)
      refine ⟨ih'.1, ?_⟩
      intro i hi
      exact Nat.le_trans hmono (ih'.2 i hi)
    | complete id =>
      have hmono := next_id_applyOp s (Op.complete id)
      refine ⟨ih'.1, ?_⟩
      intro i hi
      exact Nat.le_trans hmono (ih'.2 i hi)
    | fail id =>
      have hmono := next_id_applyOp s (Op.fail id)
      refine ⟨ih'.1, ?_⟩
      intro i hi
      exact Nat.le_trans hmono (ih'.2 i hi)
    | reclaim now =>
      have hmono := next_id_applyOp s (Op.reclaim now)
      refine ⟨ih'.1, ?_⟩
      intro i hi
      exact Nat.le_trans hmono (ih'.2 i hi)

theorem schedInv_new : SchedInv Scheduler.new := by
  refine ⟨?_, ?_, ?_, ?_, ?_⟩ <;>
    simp [Scheduler.new, allIds, qIds, lIds, qJobs]

/-- C5: in every state reachable from a fresh scheduler by any sequence of
enqueue / enqueue_default / dequeue / complete / fail / reclaim_expired
operations, the ids returned by the enqueues are strictly increasing (each is
fresh, distinct from all ids returned before, never reused), and the ids
present across the kind queues and the lease table together contain no
duplicate, so a job id occupies at most one of a kind queue and the lease
table at any instant. -/
theorem job_ids_unique_exclusive (ops : List Op) :
    (runIds Scheduler.new ops).Pairwise (· < ·) ∧
    (allIds (runOps Scheduler.new ops)).Nodup :=
  ⟨(runIds_pairwise ops Scheduler.new schedInv_new).1,
   (inv_runOps ops Scheduler.new schedInv_new).2.1⟩

/-! ### Event log (`vaultline.rs`)

`serde_json::Value` is modelled by `Jv` (numbers restricted to integers:
non-integral JSON numbers do not occur in this development), and
`serde_json::to_string` / `from_str` on `Event` by `encodeEvent` /
`decodeEvent`: the encoder reproduces serde's canonical output (struct fields
in declaration order, no extra whitespace, serde's string escaping); the
decoder parses exactly that canonical form, which is what `append` ever
writes. The backing file is the list of its lines. -/

/-- `serde_json::Value`, with integer numbers only. Objects are field lists
in serialization order. -/
inductive Jv where
  | null
  | bool (b : Bool)
  | num (n : Int)
  | str (s : String)
  | arr (items : List Jv)
  | obj (fields : List (String × Jv))

/-- The character `{`. -/
def lbraceChar : Char := Char.ofNat 123

/-- The character `}`. -/
def rbraceChar : Char := Char.ofNat 125

def digitChar (d : Nat) : Char := Char.ofNat (48 + d)

def isDigitChar (c : Char) : Bool := decide (48 ≤ c.toNat ∧ c.toNat ≤ 57)

def digitVal (c : Char) : Nat := c.toNat - 48

/-- Lowercase hex digit, as emitted by serde_json's `\u00XX` escapes. -/
def hexDigitChar (d : Nat) : Char :=
  if d < 10 then Char.ofNat (48 + d) else Char.ofNat (87 + d)

def hexVal (c : Char) : Option Nat :=
  if 48 ≤ c.toNat ∧ c.toNat ≤ 57 then some (c.toNat - 48)
  else if 97 ≤ c.toNat ∧ c.toNat ≤ 102 then some (c.toNat - 87)
  else if 65 ≤ c.toNat ∧ c.toNat ≤ 70 then some (c.toNat - 55)
  else none

/-- Decimal digits of `n`, most significant first. -/
def natDigits (n : Nat) : List Char :=
  if n < 10 then [digitChar n]
  else natDigits (n / 10) ++ [digitChar (n % 10)]
decreasing_by exact Nat.div_lt_self (by omega) (by omega)

/-- serde_json's rendering of an integer. -/
def intChars (i : Int) : List Char :=
  if i < 0 then '-' :: natDigits (-i).toNat else natDigits i.toNat

/-- serde_json's escaping of one character inside a JSON string. -/
def escChar (c : Char) : List Char :=
  if c = '"' then ['\\', '"']
  else if c = '\\' then ['\\', '\\']
  else if c = Char.ofNat 8 then ['\\', 'b']
  else if c = Char.ofNat 9 then ['\\', 't']
  else if c = Char.ofNat 10 then ['\\', 'n']
  else if c = Char.ofNat 12 then ['\\', 'f']
  else if c = Char.ofNat 13 then ['\\', 'r']
  else if c.toNat < 32 then
    let hi := hexDigitChar (c.toNat / 16)
    let lo := hexDigitChar (c.toNat % 16)
    '\\' :: 'u' :: '0' :: '0' :: hi :: [lo]
  else [c]

/-- serde_json's rendering of a string, quotes included. -/
def encString (s : String) : List Char :=
  '"' :: (s.data.map escChar).flatten ++ ['"']

mutual

/-- serde_json's canonical rendering of a value. -/
def encJv : Jv → List Char
  | Jv.null => ['n', 'u', 'l', 'l']
  | Jv.bool true => ['t', 'r', 'u', 'e']
  | Jv.bool false => ['f', 'a', 'l', 's', 'e']
  | Jv.num i => intChars i
  | Jv.str s => encString s
  | Jv.arr items => '[' :: encItems items ++ [']']
  | Jv.obj fields => lbraceChar :: encFields fields ++ [rbraceChar]

/-- Comma-separated renderings of array elements. -/
def encItems : List Jv → List Char
  | [] => []
  | [v] => encJv v
  | v :: w :: tl => encJv v ++ ',' :: encItems (w :: tl)

/-- Comma-separated `"key":value` renderings of object fields. -/
def encFields : List (String × Jv) → List Char
  | [] => []
  | [(k, v)] => encString k ++ ':' :: encJv v
  | (k, v) :: f :: tl => encString k ++ ':' :: encJv v ++ ',' :: encFields (f :: tl)

end

example : encJv (Jv.arr [Jv.null, Jv.num 12, Jv.num (-3)]) =
    ['[', 'n', 'u', 'l', 'l', ',', '1', '2', ',', '-', '3', ']'] := by
  simp [encJv, encItems, intChars, natDigits, digitChar]

/-- Consume an expected literal character sequence. -/
def dropLit : List Char → List Char → Option (List Char)
  | [], input => some input
  | _ :: _, [] => none
  | e :: es, c :: cs => if c = e then dropLit es cs else none

mutual

/-- Parse a JSON string body (after the opening quote), undoing serde's
escapes; returns the decoded characters and the input after the closing
quote. -/
def parseStrBody : List Char → Option (List Char × List Char)
  | [] => none
  | c :: rest =>
    if c = '"' then some ([], rest)
    else if c = '\\' then parseEscBody rest
    else (parseStrBody rest).map (fun p => (c :: p.1, p.2))

/-- Parse the character after a backslash escape, then the remaining body. -/
def parseEscBody : List Char → Option (List Char × List Char)
  | '"' :: rest2 => (parseStrBody rest2).map (fun p => ('"' :: p.1, p.2))
  | '\\' :: rest2 => (parseStrBody rest2).map (fun p => ('\\' :: p.1, p.2))
  | 'b' :: rest2 => (parseStrBody rest2).map (fun p => (Char.ofNat 8 :: p.1, p.2))
  | 't' :: rest2 => (parseStrBody rest2).map (fun p => (Char.ofNat 9 :: p.1, p.2))
  | 'n' :: rest2 => (parseStrBody rest2).map (fun p => (Char.ofNat 10 :: p.1, p.2))
  | 'f' :: rest2 => (parseStrBody rest2).map (fun p => (Char.ofNat 12 :: p.1, p.2))
  | 'r' :: rest2 => (parseStrBody rest2).map (fun p => (Char.ofNat 13 :: p.1, p.2))
  | 'u' :: h1 :: h2 :: h3 :: h4 :: rest3 =>
    match hexVal h1, hexVal h2, hexVal h3, hexVal h4 with
    | some d1, some d2, some d3, some d4 =>
      (parseStrBody rest3).map (fun p =>
        (Char.ofNat (((d1 * 16 + d2) * 16 + d3) * 16 + d4) :: p.1, p.2))
    | _, _, _, _ => none
  | _ => none

end

/-- Maximal run of decimal digits at the head of the input. -/
def parseDigits : List Char → List Nat × List Char
  | [] => ([], [])
  | c :: rest =>
    if isDigitChar c then
      let r := parseDigits rest
      (digitVal c :: r.1, r.2)
    else ([], c :: rest)

/-- Parse a nonempty decimal number. -/
def parseNat (input : List Char) : Option (Nat × List Char) :=
  match parseDigits input with
  | ([], _) => none
  | (ds, rest) => some (ds.foldl (fun a d => a * 10 + d) 0, rest)

mutual

/-- Parse one JSON value of serde's canonical form; `fuel` bounds the
recursion depth. -/
def parseJv : Nat → List Char → Option (Jv × List Char)
  | 0, _ => none
  | Nat.succ fuel, input =>
    match input with
    | [] => none
    | c :: rest =>
      if c = 'n' then (dropLit ['u', 'l', 'l'] rest).map (fun r => (Jv.null, r))
      else if c = 't' then
        (dropLit ['r', 'u', 'e'] rest).map (fun r => (Jv.bool true, r))
      else if c = 'f' then
        (dropLit ['a', 'l', 's', 'e'] rest).map (fun r => (Jv.bool false, r))
      else if c = '"' then
        (parseStrBody rest).map (fun p => (Jv.str (String.mk p.1), p.2))
      else if c = '-' then
        (parseNat rest).map (fun p => (Jv.num (-(p.1 : Int)), p.2))
      else if c = '[' then
        match rest with
        | [] => none
        | r0 :: r2 =>
          if r0 = ']' then some (Jv.arr [], r2)
          else (parseItems fuel (r0 :: r2)).map (fun p => (Jv.arr p.1, p.2))
      else if c = lbraceChar then
        match rest with
        | [] => none
        | r0 :: r2 =>
          if r0 = rbraceChar then some (Jv.obj [], r2)
          else (parseFields fuel (r0 :: r2)).map (fun p => (Jv.obj p.1, p.2))
      else if isDigitChar c then
        (parseNat (c :: rest)).map (fun p => (Jv.num (p.1 : Int), p.2))
      else none

/-- Parse the elements of a nonempty array, up to and including `]`. -/
def parseItems : Nat → List Char → Option (List Jv × List Char)
  | 0, _ => none
  | Nat.succ fuel, input =>
    match parseJv fuel input with
    | none => none
    | some (v, r) =>
      match r with
      | [] => none
      | r0 :: r2 =>
        if r0 = ',' then (parseItems fuel r2).map (fun p => (v :: p.1, p.2))
        else if r0 = ']' then some ([v], r2)
        else none

/-- Parse the fields of a nonempty object, up to and including `}`. -/
def parseFields : Nat → List Char → Option (List (String × Jv) × List Char)
  | 0, _ => none
  | Nat.succ fuel, input =>
    match input with
    | [] => none
    | i0 :: i1 =>
      if i0 = '"' then
        match parseStrBody i1 with
        | none => none
        | some (k, r1) =>
          match r1 with
          | [] => none
          | r0 :: r2 =>
            if r0 = ':' then
              match parseJv fuel r2 with
              | none => none
              | some (v, r3) =>
                match r3 with
                | [] => none
                | r4 :: r5 =>
                  if r4 = ',' then
                    (parseFields fuel r5).map
                      (fun p => ((String.mk k, v) :: p.1, p.2))
                  else if r4 = rbraceChar then some ([(String.mk k, v)], r5)
                  else none
            else none
      else none

end

example :
    parseJv 10 (['[', 'n', 'u', 'l', 'l', ',', '1', '2', ',', '-', '3', ']']) =
      some (Jv.arr [Jv.null, Jv.num 12, Jv.num (-3)], []) := by
  rfl

example :
    parseStrBody ('a' :: '\\' :: 'n' :: '\\' :: 'u' :: '0' :: '0' :: '1' :: 'b' ::
      '"' :: 'x' :: []) =
      some ([ 'a', Char.ofNat 10, Char.ofNat 27], ['x']) := by
  rfl

/-! ### Codec inversion lemmas -/

theorem dropLit_append (lit : List Char) : ∀ rest : List Char,
    dropLit lit (lit ++ rest) = some rest := by
  induction lit with
  | nil => intro rest; rfl
  | cons c cs ih =>
    intro rest
    simp only [List.cons_append, dropLit, if_pos rfl]
    exact ih rest

/-- `true` when the input does not start with a decimal digit. -/
def headNotDigit : List Char → Bool
  | [] => true
  | c :: _ => !isDigitChar c

theorem digitVal_digitChar (d : Nat) (h : d < 10) :
    digitVal (digitChar d) = d := by
  interval_cases d <;> rfl

theorem isDigitChar_digitChar (d : Nat) (h : d < 10) :
    isDigitChar (digitChar d) = true := by
  interval_cases d <;> rfl

theorem natDigits_ne_nil (n : Nat) : natDigits n ≠ [] := by
  unfold natDigits
  by_cases h : n < 10 <;> simp [h]

theorem natDigits_digits (n : Nat) :
    ∀ c ∈ natDigits n, isDigitChar c = true := by
  induction n using Nat.strong_induction_on with
  | _ n ih =>
    unfold natDigits
    by_cases h : n < 10
    · simp only [if_pos h, List.mem_singleton]
      intro c hc
      subst hc
      exact isDigitChar_digitChar n h
    · simp only [if_neg h, List.mem_append, List.mem_singleton]
      intro c hmem
      rcases hmem with hmem | hmem
      · exact ih (n / 10) (Nat.div_lt_self (by omega) (by omega)) c hmem
      · subst hmem
        exact isDigitChar_digitChar (n % 10) (Nat.mod_lt _ (by omega))

theorem parseDigits_append (ds : List Char) (rest : List Char)
    (hds : ∀ c ∈ ds, isDigitChar c = true) (hrest : headNotDigit rest = true) :
    parseDigits (ds ++ rest) = (ds.map digitVal, rest) := by
  induction ds with
  | nil =>
    rcases rest with _ | ⟨c, tl⟩
    · rfl
    · simp only [headNotDigit, Bool.not_eq_true'] at hrest
      simp [parseDigits, hrest]
  | cons c tl ih =>
    have hc : isDigitChar c = true := hds c (by simp)
    simp only [List.cons_append, parseDigits, hc, if_true, List.map_cons,
      List.append_eq]
    rw [ih (fun x hx => hds x (by simp [hx]))]

theorem foldl_digits_natDigits (n : Nat) :
    ∀ acc : Nat,
      ((natDigits n).map digitVal).foldl (fun a d => a * 10 + d) acc =
        acc * 10 ^ (natDigits n).length + n := by
  induction n using Nat.strong_induction_on with
  | _ n ih =>
    intro acc
    unfold natDigits
    by_cases h : n < 10
    · simp [if_pos h, digitVal_digitChar n h]
    · simp only [if_neg h, List.map_append, List.map_cons, List.map_nil,
        List.foldl_append, List.length_append, List.length_cons,
        List.length_nil, List.foldl_cons, List.foldl_nil]
      rw [ih (n / 10) (Nat.div_lt_self (by omega) (by omega)) acc]
      rw [digitVal_digitChar (n % 10) (Nat.mod_lt _ (by omega))]
      rw [pow_succ]
      have h2 : 10 * (n / 10) + n % 10 = n := Nat.div_add_mod n 10
      ring_nf
      omega

theorem parseNat_natDigits (n : Nat) (rest : List Char)
    (hrest : headNotDigit rest = true) :
    parseNat (natDigits n ++ rest) = some (n, rest) := by
  unfold parseNat
  rw [parseDigits_append (natDigits n) rest (natDigits_digits n) hrest]
  rcases hd : natDigits n with _ | ⟨c, tl⟩
  · exact absurd hd (natDigits_ne_nil n)
  · have := foldl_digits_natDigits n 0
    rw [hd] at this
    simp only [List.map_cons] at this ⊢
    simp only [Nat.zero_mul, Nat.zero_add] at this
    rw [this]

theorem hexVal_hexDigitChar (d : Nat) (h : d < 16) :
    hexVal (hexDigitChar d) = some d := by
  interval_cases d <;> rfl

theorem parseStrBody_esc : ∀ (s : List Char) (rest : List Char),
    parseStrBody ((s.map escChar).flatten ++ '"' :: rest) = some (s, rest) := by
  intro s
  induction s with
  | nil =>
    intro rest
    simp only [List.map_nil, List.flatten_nil, List.nil_append]
    simp only [parseStrBody, if_true]
  | cons c tl ih =>
    intro rest
    simp only [List.map_cons, List.flatten_cons, List.append_assoc]
    by_cases h1 : c = '"'
    · subst h1
      rw [show escChar '"' = ['\\', '"'] from rfl]
      simp only [List.cons_append, List.nil_append]
      simp only [parseStrBody, if_true]
      simp only [parseEscBody]
      rw [ih rest]
      rfl
    by_cases h2 : c = '\\'
    · subst h2
      rw [show escChar '\\' = ['\\', '\\'] from rfl]
      simp only [List.cons_append, List.nil_append]
      simp only [parseStrBody, if_true]
      simp only [parseEscBody]
      rw [ih rest]
      rfl
    by_cases h3 : c = Char.ofNat 8
    · subst h3
      rw [show escChar (Char.ofNat 8) = ['\\', 'b'] from rfl]
      simp only [List.cons_append, List.nil_append]
      simp only [parseStrBody, if_true]
      simp only [parseEscBody]
      rw [ih rest]
      rfl
    by_cases h4 : c = Char.ofNat 9
    · subst h4
      rw [show escChar (Char.ofNat 9) = ['\\', 't'] from rfl]
      simp only [List.cons_append, List.nil_append]
      simp only [parseStrBody, if_true]
      simp only [parseEscBody]
      rw [ih rest]
      rfl
    by_cases h5 : c = Char.ofNat 10
    · subst h5
      rw [show escChar (Char.ofNat 10) = ['\\', 'n'] from rfl]
      simp only [List.cons_append, List.nil_append]
      simp only [parseStrBody, if_true]
      simp only [parseEscBody]
      rw [ih rest]
      rfl
    by_cases h6 : c = Char.ofNat 12
    · subst h6
      rw [show escChar (Char.ofNat 12) = ['\\', 'f'] from rfl]
      simp only [List.cons_append, List.nil_append]
      simp only [parseStrBody, if_true]
      simp only [parseEscBody]
      rw [ih rest]
      rfl
    by_cases h7 : c = Char.ofNat 13
    · subst h7
      rw [show escChar (Char.ofNat 13) = ['\\', 'r'] from rfl]
      simp only [List.cons_append, List.nil_append]
      simp only [parseStrBody, if_true]
      simp only [parseEscBody]
      rw [ih rest]
      rfl
    by_cases h8 : c.toNat < 32
    · have hesc : escChar c =
          '\\' :: 'u' :: '0' :: '0' :: hexDigitChar (c.toNat / 16) ::
            [hexDigitChar (c.toNat % 16)] := by
        unfold escChar
        rw [if_neg h1, if_neg h2, if_neg h3, if_neg h4, if_neg h5, if_neg h6,
          if_neg h7, if_pos h8]
      rw [hesc]
      simp only [List.cons_append, List.nil_append]
      have ha := hexVal_hexDigitChar (c.toNat / 16) (by omega)
      have hb := hexVal_hexDigitChar (c.toNat % 16) (by omega)
      simp only [parseStrBody, if_true]
      simp only [parseEscBody, show hexVal '0' = some 0 from rfl, ha, hb]
      rw [ih rest]
      have harith :
          ((0 * 16 + 0) * 16 + c.toNat / 16) * 16 + c.toNat % 16 = c.toNat := by
        omega
      rw [harith, Char.ofNat_toNat]
      rfl
    · have hesc : escChar c = [c] := by
        unfold escChar
        rw [if_neg h1, if_neg h2, if_neg h3, if_neg h4, if_neg h5, if_neg h6,
          if_neg h7, if_neg h8]
      rw [hesc]
      simp only [List.cons_append, List.nil_append]
      simp only [parseStrBody]
      rw [if_neg h1, if_neg h2]
      rw [ih rest]
      rfl

mutual

/-- Fuel bound needed to parse an encoded value. -/
def jvSize : Jv → Nat
  | Jv.null => 1
  | Jv.bool _ => 1
  | Jv.num _ => 1
  | Jv.str _ => 1
  | Jv.arr items => 1 + itemsSize items
  | Jv.obj fields => 1 + fieldsSize fields

/-- Fuel bound for an array element list. -/
def itemsSize : List Jv → Nat
  | [] => 1
  | v :: tl => 1 + jvSize v + itemsSize tl

/-- Fuel bound for an object field list. -/
def fieldsSize : List (String × Jv) → Nat
  | [] => 1
  | (_, v) :: tl => 1 + jvSize v + fieldsSize tl

end

theorem jvSize_pos (v : Jv) : 1 ≤ jvSize v := by
  cases v <;> simp [jvSize]

theorem itemsSize_pos (items : List Jv) : 1 ≤ itemsSize items := by
  cases items <;> simp [itemsSize] <;> omega

theorem fieldsSize_pos (fields : List (String × Jv)) : 1 ≤ fieldsSize fields := by
  cases fields with
  | nil => simp [fieldsSize]
  | cons f tl =>
    obtain ⟨k, v⟩ := f
    simp [fieldsSize]
    omega

theorem natDigits_head_digit (n : Nat) :
    ∃ c0 tl0, natDigits n = c0 :: tl0 ∧ isDigitChar c0 = true := by
  rcases hd : natDigits n with _ | ⟨c0, tl0⟩
  · exact absurd hd (natDigits_ne_nil n)
  · refine ⟨c0, tl0, rfl, ?_⟩
    exact natDigits_digits n c0 (by rw [hd]; simp)

theorem digit_not_keyword (c : Char) (h : isDigitChar c = true) :
    ¬(c = 'n') ∧ ¬(c = 't') ∧ ¬(c = 'f') ∧ ¬(c = '"') ∧ ¬(c = '-') ∧
    ¬(c = '[') ∧ ¬(c = lbraceChar) ∧ ¬(c = ']') ∧ ¬(c = ',') ∧
    ¬(c = rbraceChar) := by
  refine ⟨?_, ?_, ?_, ?_, ?_, ?_, ?_, ?_, ?_, ?_⟩ <;>
    · intro h2
      subst h2
      exact absurd h (by decide)

/-- The first character of an encoded value; never a closing delimiter. -/
theorem encJv_head (v : Jv) :
    ∃ c0 tl0, encJv v = c0 :: tl0 ∧ ¬(c0 = ']') ∧ ¬(c0 = rbraceChar) ∧
      ¬(c0 = ',') := by
  cases v with
  | null => exact ⟨'n', ['u', 'l', 'l'], rfl, by decide⟩
  | bool b =>
    cases b with
    | true => exact ⟨'t', ['r', 'u', 'e'], rfl, by decide⟩
    | false => exact ⟨'f', ['a', 'l', 's', 'e'], rfl, by decide⟩
  | num i =>
    by_cases hi : i < 0
    · refine ⟨'-', natDigits (-i).toNat, ?_, by decide⟩
      simp [encJv, intChars, hi]
    · obtain ⟨c0, tl0, hd, hdig⟩ := natDigits_head_digit i.toNat
      have hk := digit_not_keyword c0 hdig
      refine ⟨c0, tl0, ?_, hk.2.2.2.2.2.2.2.1, hk.2.2.2.2.2.2.2.2.2,
        hk.2.2.2.2.2.2.2.2.1⟩
      simp [encJv, intChars, hi, hd]
  | str s => exact ⟨'"', (s.data.map escChar).flatten ++ ['"'], rfl, by decide⟩
  | arr items => exact ⟨'[', encItems items ++ [']'], rfl, by decide⟩
  | obj fields =>
    exact ⟨lbraceChar, encFields fields ++ [rbraceChar], rfl, by decide⟩

/-- The first character of an encoded nonempty element list. -/
theorem encItems_head (v : Jv) (tl : List Jv) :
    ∃ c0 tl0, encItems (v :: tl) = c0 :: tl0 ∧ ¬(c0 = ']') := by
  obtain ⟨c0, tl0, hd, hne, _, _⟩ := encJv_head v
  cases tl with
  | nil => exact ⟨c0, tl0, by simp [encItems, hd], hne⟩
  | cons w tl2 =>
    refine ⟨c0, tl0 ++ ',' :: encItems (w :: tl2), ?_, hne⟩
    simp [encItems, hd]

/-- The first character of an encoded nonempty field list. -/
theorem encFields_head (k : String) (v : Jv) (tl : List (String × Jv)) :
    ∃ tl0, encFields ((k, v) :: tl) = '"' :: tl0 := by
  cases tl with
  | nil =>
    refine ⟨(k.data.map escChar).flatten ++ ['"'] ++ ':' :: encJv v, ?_⟩
    simp [encFields, encString]
  | cons f tl2 =>
    refine ⟨(k.data.map escChar).flatten ++ ['"'] ++ ':' :: encJv v ++
      ',' :: encFields (f :: tl2), ?_⟩
    simp [encFields, encString]

theorem parse_enc : ∀ fuel : Nat,
    (∀ (v : Jv) (rest : List Char), jvSize v ≤ fuel →
      headNotDigit rest = true →
      parseJv fuel (encJv v ++ rest) = some (v, rest)) ∧
    (∀ (items : List Jv) (rest : List Char), itemsSize items ≤ fuel →
      items ≠ [] →
      parseItems fuel (encItems items ++ ']' :: rest) = some (items, rest)) ∧
    (∀ (fields : List (String × Jv)) (rest : List Char),
      fieldsSize fields ≤ fuel → fields ≠ [] →
      parseFields fuel (encFields fields ++ rbraceChar :: rest) =
        some (fields, rest)) := by
  intro fuel
  induction fuel using Nat.strong_induction_on with
  | _ fuel ih =>
    rcases fuel with _ | fuel
    · refine ⟨?_, ?_, ?_⟩
      · intro v rest hs _
        exact absurd hs (by have := jvSize_pos v; omega)
      · intro items rest hs _
        exact absurd hs (by have := itemsSize_pos items; omega)
      · intro fields rest hs _
        exact absurd hs (by have := fieldsSize_pos fields; omega)
    · obtain ⟨ihA, ihB, ihC⟩ := ih fuel (Nat.lt_succ_self fuel)
      refine ⟨?_, ?_, ?_⟩
      · intro v rest hs hr
        cases v with
        | null =>
          simp only [encJv, List.cons_append, List.nil_append]
          rfl
        | bool b =>
          cases b with
          | true =>
            simp only [encJv, List.cons_append, List.nil_append]
            rfl
          | false =>
            simp only [encJv, List.cons_append, List.nil_append]
            rfl
        | num i =>
          rcases i with n | n
          · have hnn : ¬((Int.ofNat n) < 0) := by
              simp
            obtain ⟨c0, tl0, hd, hdig⟩ := natDigits_head_digit n
            have hconds := digit_not_keyword c0 hdig
            have henc : encJv (Jv.num (Int.ofNat n)) = natDigits n := by
              simp [encJv, intChars, hnn]
            rw [henc, hd]
            simp only [List.cons_append]
            simp only [parseJv]
            rw [if_neg hconds.1, if_neg hconds.2.1, if_neg hconds.2.2.1,
              if_neg hconds.2.2.2.1, if_neg hconds.2.2.2.2.1,
              if_neg hconds.2.2.2.2.2.1, if_neg hconds.2.2.2.2.2.2.1,
              if_pos hdig]
            rw [show c0 :: (tl0 ++ rest) = (c0 :: tl0) ++ rest from rfl, ← hd]
            rw [parseNat_natDigits n rest hr]
            rfl
          · have henc : encJv (Jv.num (Int.negSucc n)) =
                '-' :: natDigits (n + 1) := by
              have h0 : (Int.negSucc n) < 0 := Int.negSucc_lt_zero n
              simp [encJv, intChars, h0]
              rfl
            rw [henc]
            simp only [List.cons_append]
            simp only [parseJv]
            simp only [reduceIte]
            rw [parseNat_natDigits (n + 1) rest hr]
            rfl
        | str s =>
          have henc : encJv (Jv.str s) =
              '"' :: ((s.data.map escChar).flatten ++ ['"']) := by
            simp [encJv, encString]
          rw [henc]
          simp only [List.cons_append, List.append_assoc, List.singleton_append,
              List.nil_append]
          simp only [parseJv]
          simp only [reduceIte]
          rw [parseStrBody_esc s.data rest]
          rfl
        | arr items =>
          cases items with
          | nil =>
            have henc : encJv (Jv.arr []) = ['[', ']'] := by
              simp [encJv, encItems]
            rw [henc]
            simp only [List.cons_append, List.nil_append]
            rfl
          | cons v tl =>
            obtain ⟨c0, tl0, hd, hne⟩ := encItems_head v tl
            have henc : encJv (Jv.arr (v :: tl)) =
                '[' :: (encItems (v :: tl) ++ [']']) := by
              simp [encJv]
            rw [henc]
            simp only [List.cons_append, List.append_assoc, List.singleton_append,
              List.nil_append]
            rw [hd]
            simp only [List.cons_append]
            simp only [parseJv]
            simp only [reduceIte]
            rw [if_neg hne]
            rw [show c0 :: (tl0 ++ ']' :: rest) = (c0 :: tl0) ++ ']' :: rest from
              rfl, ← hd]
            rw [ihB (v :: tl) rest (by simp [jvSize] at hs; omega) (by simp)]
            rfl
        | obj fields =>
          cases fields with
          | nil =>
            have henc : encJv (Jv.obj []) = [lbraceChar, rbraceChar] := by
              simp [encJv, encFields]
            rw [henc]
            simp only [List.cons_append, List.nil_append]
            rfl
          | cons f tl =>
            obtain ⟨k, v⟩ := f
            obtain ⟨tl0, hd⟩ := encFields_head k v tl
            have henc : encJv (Jv.obj ((k, v) :: tl)) =
                lbraceChar :: (encFields ((k, v) :: tl) ++ [rbraceChar]) := by
              simp [encJv]
            rw [henc]
            simp only [List.cons_append, List.append_assoc, List.singleton_append,
              List.nil_append]
            rw [hd]
            simp only [List.cons_append]
            simp only [parseJv]
            simp only [reduceIte]
            rw [show ('"' : Char) :: (tl0 ++ rbraceChar :: rest) =
              (('"' : Char) :: tl0) ++ rbraceChar :: rest from rfl, ← hd]
            rw [ihC ((k, v) :: tl) rest (by simp [jvSize] at hs; omega)
              (by simp)]
            rfl
      · intro items rest hs hne
        match items with
        | [v] =>
          have hsv : jvSize v ≤ fuel := by
            simp [itemsSize] at hs
            have := itemsSize_pos ([] : List Jv)
            omega
          simp only [encItems]
          simp only [parseItems]
          rw [ihA v (']' :: rest) hsv rfl]
          rfl
        | v :: w :: tl =>
          have hsv : jvSize v ≤ fuel := by
            simp [itemsSize] at hs
            have := itemsSize_pos (w :: tl)
            omega
          have hstl : itemsSize (w :: tl) ≤ fuel := by
            simp [itemsSize] at hs ⊢
            have := jvSize_pos v
            omega
          simp only [encItems]
          simp only [List.append_assoc, List.cons_append, List.singleton_append,
            List.nil_append]
          simp only [parseItems]
          rw [ihA v (',' :: (encItems (w :: tl) ++ ']' :: rest)) hsv rfl]
          simp only [reduceIte]
          rw [ihB (w :: tl) rest hstl (by simp)]
          rfl
      · intro fields rest hs hne
        match fields with
        | [(k, v)] =>
          have hsv : jvSize v ≤ fuel := by
            simp [fieldsSize] at hs
            have := fieldsSize_pos ([] : List (String × Jv))
            omega
          simp only [encFields, encString]
          simp only [List.append_assoc, List.cons_append, List.singleton_append,
            List.nil_append]
          simp only [parseFields]
          simp only [reduceIte]
          rw [parseStrBody_esc k.data (':' :: (encJv v ++ rbraceChar :: rest))]
          simp only [reduceIte]
          rw [ihA v (rbraceChar :: rest) hsv rfl]
          simp only [reduceIte]
          rfl
        | (k, v) :: f :: tl =>
          have hsv : jvSize v ≤ fuel := by
            simp [fieldsSize] at hs
            have := fieldsSize_pos (f :: tl)
            omega
          have hstl : fieldsSize (f :: tl) ≤ fuel := by
            rcases f with ⟨k2, v2⟩
            simp [fieldsSize] at hs ⊢
            have := jvSize_pos v
            omega
          simp only [encFields, encString]
          simp only [List.append_assoc, List.cons_append, List.singleton_append,
            List.nil_append]
          simp only [parseFields]
          simp only [reduceIte]
          rw [parseStrBody_esc k.data
            (':' :: (encJv v ++ ',' :: (encFields (f :: tl) ++
              rbraceChar :: rest)))]
          simp only [reduceIte]
          rw [ihA v (',' :: (encFields (f :: tl) ++ rbraceChar :: rest)) hsv rfl]
          simp only [reduceIte]
          rw [ihC (f :: tl) rest hstl (by simp)]
          rfl

theorem intChars_ne_nil (i : Int) : intChars i ≠ [] := by
  unfold intChars
  by_cases h : i < 0
  · simp [h]
  · simp [h, natDigits_ne_nil]

mutual

theorem jvSize_le_enc : (v : Jv) → jvSize v ≤ 2 * (encJv v).length
  | Jv.null => by simp [jvSize, encJv]
  | Jv.bool b => by cases b <;> simp [jvSize, encJv]
  | Jv.num i => by
    have h : 1 ≤ (intChars i).length :=
      List.length_pos.mpr (intChars_ne_nil i)
    simp only [jvSize, encJv]
    omega
  | Jv.str s => by
    simp only [jvSize, encJv, encString, List.length_cons, List.length_append]
    omega
  | Jv.arr items => by
    have h := itemsSize_le_enc items
    simp only [jvSize, encJv, List.length_cons, List.length_append,
      List.length_singleton]
    omega
  | Jv.obj fields => by
    have h := fieldsSize_le_enc fields
    simp only [jvSize, encJv, List.length_cons, List.length_append,
      List.length_singleton]
    omega

theorem itemsSize_le_enc :
    (items : List Jv) → itemsSize items ≤ 2 * (encItems items).length + 2
  | [] => by simp [itemsSize, encItems]
  | [v] => by
    have h := jvSize_le_enc v
    simp only [itemsSize, encItems]
    omega
  | v :: w :: tl => by
    have h1 := jvSize_le_enc v
    have h2 := itemsSize_le_enc (w :: tl)
    have e1 : itemsSize (v :: w :: tl) = 1 + jvSize v + itemsSize (w :: tl) := by
      conv_lhs => rw [itemsSize]
    have e2 : encItems (v :: w :: tl) = encJv v ++ ',' :: encItems (w :: tl) := by
      conv_lhs => rw [encItems]
    rw [e1, e2]
    simp only [List.length_append, List.length_cons]
    omega

theorem fieldsSize_le_enc :
    (fields : List (String × Jv)) →
      fieldsSize fields ≤ 2 * (encFields fields).length + 2
  | [] => by simp [fieldsSize, encFields]
  | [(k, v)] => by
    have h := jvSize_le_enc v
    simp only [fieldsSize, encFields, List.length_append, List.length_cons]
    omega
  | (k, v) :: f :: tl => by
    have h1 := jvSize_le_enc v
    have h2 := fieldsSize_le_enc (f :: tl)
    have e1 : fieldsSize ((k, v) :: f :: tl) =
        1 + jvSize v + fieldsSize (f :: tl) := by
      conv_lhs => rw [fieldsSize]
    have e2 : encFields ((k, v) :: f :: tl) =
        encString k ++ ':' :: encJv v ++ ',' :: encFields (f :: tl) := by
      conv_lhs => rw [encFields]
    rw [e1, e2]
    simp only [List.length_append, List.length_cons]
    omega

end

/-- `Event` from `vaultline.rs` (`ts_ms` is `u128` in the source, modelled as
`Nat`; `kv` is a `serde_json::Value`). -/
structure Event where
  ts_ms : Nat
  source : String
  level : String
  message : String
  kv : Jv

/-- The literal `"ts_ms":` opening the serialized record (after `{`). -/
def litTs : List Char := ['"', 't', 's', '_', 'm', 's', '"', ':']

/-- The literal `,"source":`. -/
def litSource : List Char :=
  [',', '"', 's', 'o', 'u', 'r', 'c', 'e', '"', ':']

/-- The literal `,"level":`. -/
def litLevel : List Char := [',', '"', 'l', 'e', 'v', 'e', 'l', '"', ':']

/-- The literal `,"message":`. -/
def litMessage : List Char :=
  [',', '"', 'm', 'e', 's', 's', 'a', 'g', 'e', '"', ':']

/-- The literal `,"kv":`. -/
def litKv : List Char := [',', '"', 'k', 'v', '"', ':']

/-- `serde_json::to_string(&event)`: the canonical one-line record, fields in
struct declaration order. -/
def encodeEvent (e : Event) : List Char :=
  (lbraceChar :: litTs) ++ natDigits e.ts_ms ++ litSource ++
    encString e.source ++ litLevel ++ encString e.level ++ litMessage ++
    encString e.message ++ litKv ++ encJv e.kv ++ [rbraceChar]

/-- Parse a quoted JSON string (opening quote included). -/
def expectStr : List Char → Option (List Char × List Char)
  | [] => none
  | c :: r => if c = '"' then parseStrBody r else none

/-- Parse one `lit` followed by one quoted string. -/
def parseField (lit : List Char) (input : List Char) :
    Option (List Char × List Char) :=
  (dropLit lit input).bind expectStr

/-- `serde_json::from_str::<Event>` on the canonical record format (the only
format `append` ever writes). -/
def decodeEvent (line : List Char) : Option Event :=
  (dropLit (lbraceChar :: litTs) line).bind fun r1 =>
  (parseNat r1).bind fun p1 =>
  (parseField litSource p1.2).bind fun p2 =>
  (parseField litLevel p2.2).bind fun p3 =>
  (parseField litMessage p3.2).bind fun p4 =>
  (dropLit litKv p4.2).bind fun r5 =>
  (parseJv (2 * r5.length + 2) r5).bind fun p5 =>
  if p5.2 = [rbraceChar] then
    some ⟨p1.1, String.mk p2.1, String.mk p3.1, String.mk p4.1, p5.1⟩
  else none

theorem parseField_enc (lit : List Char) (s : String) (rest : List Char) :
    parseField lit (lit ++ (encString s ++ rest)) = some (s.data, rest) := by
  unfold parseField
  rw [show lit ++ (encString s ++ rest) = lit ++ (encString s ++ rest) from rfl,
    dropLit_append]
  have henc : encString s ++ rest =
      '"' :: ((s.data.map escChar).flatten ++ '"' :: rest) := by
    simp [encString]
  rw [henc]
  simp only [Option.some_bind, expectStr, if_pos rfl]
  exact parseStrBody_esc s.data rest

/-- Round-trip at the record level: decoding a canonical encoding gives back
the event. -/
theorem decodeEvent_encodeEvent (e : Event) :
    decodeEvent (encodeEvent e) = some e := by
  obtain ⟨ts, src, lvl, msg, kv⟩ := e
  have hkv : jvSize kv ≤ 2 * (encJv kv ++ [rbraceChar]).length + 2 := by
    have := jvSize_le_enc kv
    simp only [List.length_append, List.length_singleton]
    omega
  unfold decodeEvent encodeEvent
  simp only [List.append_assoc]
  rw [dropLit_append]
  simp only [Option.some_bind]
  rw [parseNat_natDigits ts
    (litSource ++ (encString src ++ (litLevel ++ (encString lvl ++
      (litMessage ++ (encString msg ++ (litKv ++ (encJv kv ++
        [rbraceChar])))))))) rfl]
  simp only [Option.some_bind]
  rw [parseField_enc]
  simp only [Option.some_bind]
  rw [parseField_enc]
  simp only [Option.some_bind]
  rw [parseField_enc]
  simp only [Option.some_bind]
  rw [dropLit_append]
  simp only [Option.some_bind]
  rw [(parse_enc (2 * (encJv kv ++ [rbraceChar]).length + 2)).1 kv
    [rbraceChar] hkv rfl]
  simp only [Option.some_bind, if_pos rfl]
  rfl

/-- `Vaultline` from `vaultline.rs`: in-memory buffer plus optional backing
file, modelled as its list of lines. -/
structure Vaultline where
  mem : List Event
  file : Option (List (List Char))

/-- `Vaultline::new(path)`: ensure the file exists (its current lines are
`disk`, `[]` for a fresh path) and start with an empty in-memory buffer;
existing contents are not loaded eagerly. -/
def Vaultline.new (disk : List (List Char)) : Vaultline :=
  { mem := [], file := some disk }

/-- `Vaultline::new_in_memory()`. -/
def Vaultline.new_in_memory : Vaultline := { mem := [], file := none }

/-- `Vaultline::append`: push a copy onto the in-memory buffer first, then
append one NDJSON line to the backing file. `writeOk` abstracts whether the
file open/serialize/write succeeds; on failure the error propagates after the
in-memory push. -/
def Vaultline.append (v : Vaultline) (event : Event) (writeOk : Bool) :
    Vaultline × Except String Unit :=
  let v1 : Vaultline := { v with mem := v.mem ++ [event] }
  match v.file with
  | none => (v1, Except.ok ())
  | some lines =>
    if writeOk then
      ({ v1 with file := some (lines ++ [encodeEvent event]) }, Except.ok ())
    else (v1, Except.error "io failure")

/-- `Vaultline::tail`: last `n` buffered events (`saturating_sub` start). -/
def Vaultline.tail (v : Vaultline) (n : Nat) : List Event :=
  v.mem.drop (v.mem.length - n)

/-- `Vaultline::all`. -/
def Vaultline.all (v : Vaultline) : List Event := v.mem

/-- `char::is_whitespace` restricted to ASCII (what `str::trim` strips in the
lines this log writes). -/
def isWhitespaceChar (c : Char) : Bool :=
  decide (c.toNat = 32 ∨ (9 ≤ c.toNat ∧ c.toNat ≤ 13))

/-- One iteration of the replay loop in `Vaultline::load_from_disk`: skip a
line that trims to empty, parse the rest, push and count on success, skip on
parse failure. -/
def loadStep (acc : Nat × List Event) (line : List Char) : Nat × List Event :=
  if line.all isWhitespaceChar then acc
  else
    match decodeEvent line with
    | some ev => (acc.1 + 1, acc.2 ++ [ev])
    | none => acc

/-- `Vaultline::load_from_disk`: replay the backing file into memory,
returning the number of events loaded; 0 with no backing file. -/
def Vaultline.load_from_disk (v : Vaultline) : Nat × Vaultline :=
  match v.file with
  | none => (0, v)
  | some lines =>
    let r := lines.foldl loadStep (0, v.mem)
    (r.1, { v with mem := r.2 })

theorem encodeEvent_not_blank (e : Event) :
    (encodeEvent e).all isWhitespaceChar = false := by
  have h : encodeEvent e = lbraceChar :: (litTs ++ natDigits e.ts_ms ++
      litSource ++ encString e.source ++ litLevel ++ encString e.level ++
      litMessage ++ encString e.message ++ litKv ++ encJv e.kv ++
      [rbraceChar]) := by
    simp [encodeEvent]
  rw [h, List.all_cons]
  rfl

theorem load_foldl_enc (evs : List Event) :
    ∀ acc : Nat × List Event,
      (evs.map encodeEvent).foldl loadStep acc = (acc.1 + evs.length, acc.2 ++ evs) := by
  induction evs with
  | nil => intro acc; simp
  | cons e tl ih =>
    intro acc
    simp only [List.map_cons, List.foldl_cons]
    have hstep : loadStep acc (encodeEvent e) = (acc.1 + 1, acc.2 ++ [e]) := by
      unfold loadStep
      rw [encodeEvent_not_blank e]
      simp only [Bool.false_eq_true, if_false]
      rw [decodeEvent_encodeEvent e]
    rw [hstep, ih]
    simp only [List.length_cons, List.append_assoc, List.singleton_append]
    rw [Nat.add_assoc, Nat.add_comm 1 tl.length]

/-- C7: appending N events to a fresh file-backed log writes exactly their
encodings, in order; a fresh handle over the same backing file replayed with
`load_from_disk` returns N and the same N events, in insertion order, with
identical field values. -/
theorem vaultline_round_trip (evs : List Event) :
    (evs.foldl (fun v e => (Vaultline.append v e true).1)
        (Vaultline.new [])).file = some (evs.map encodeEvent) ∧
    Vaultline.load_from_disk { mem := [], file := some (evs.map encodeEvent) } =
      (evs.length, { mem := evs, file := some (evs.map encodeEvent) }) := by
  constructor
  · have hgen : ∀ (evs : List Event) (mem0 : List Event)
        (lines : List (List Char)),
        evs.foldl (fun v e => (Vaultline.append v e true).1)
            { mem := mem0, file := some lines } =
          { mem := mem0 ++ evs, file := some (lines ++ evs.map encodeEvent) } := by
      intro evs
      induction evs with
      | nil => intro mem0 lines; simp
      | cons e tl ih =>
        intro mem0 lines
        simp only [List.foldl_cons]
        have happ : (Vaultline.append { mem := mem0, file := some lines } e
            true).1 =
            { mem := mem0 ++ [e], file := some (lines ++ [encodeEvent e]) } := by
          rfl
        rw [happ, ih]
        simp
    rw [show Vaultline.new [] = { mem := [], file := some [] } from rfl, hgen]
    simp
  · unfold Vaultline.load_from_disk
    simp only
    rw [load_foldl_enc evs (0, [])]
    simp

/-- C8: `load_from_disk` over N valid lines followed by one unparseable line
returns N, appends exactly those N events to the in-memory buffer and skips
the corrupt line, the call still succeeding; with no backing file it returns 0
and reads nothing. -/
theorem load_skips_corrupt_line (evs : List Event) (mem0 : List Event)
    (c : List Char) (hc : decodeEvent c = none) :
    Vaultline.load_from_disk
        { mem := mem0, file := some (evs.map encodeEvent ++ [c]) } =
      (evs.length,
        { mem := mem0 ++ evs, file := some (evs.map encodeEvent ++ [c]) }) ∧
    Vaultline.load_from_disk { mem := mem0, file := none } =
      (0, { mem := mem0, file := none }) := by
  constructor
  · unfold Vaultline.load_from_disk
    simp only
    rw [List.foldl_append, load_foldl_enc evs (0, mem0)]
    have hstep : loadStep (0 + evs.length, mem0 ++ evs) c =
        (0 + evs.length, mem0 ++ evs) := by
      unfold loadStep
      by_cases hws : c.all isWhitespaceChar = true
      · rw [if_pos hws]
      · rw [if_neg hws, hc]
    simp only [List.foldl_cons, List.foldl_nil]
    rw [hstep]
    simp
  · rfl

theorem load_skips_corrupt_line_witness :
    decodeEvent ['o', 'o', 'p', 's'] = none ∧
    (Vaultline.load_from_disk
        { mem := [], file := some ([(⟨5, "s", "l", "m", Jv.null⟩ : Event)].map
          encodeEvent ++ [['o', 'o', 'p', 's']]) } =
      (1, { mem := [] ++ [(⟨5, "s", "l", "m", Jv.null⟩ : Event)],
            file := some ([(⟨5, "s", "l", "m", Jv.null⟩ : Event)].map
              encodeEvent ++ [['o', 'o', 'p', 's']]) }) ∧
    Vaultline.load_from_disk { mem := [], file := none } =
      (0, { mem := ([] : List Event), file := none })) :=
  ⟨rfl, load_skips_corrupt_line [⟨5, "s", "l", "m", Jv.null⟩] []
    ['o', 'o', 'p', 's'] rfl⟩

/-- C9: `append` pushes the event onto the in-memory buffer before attempting
the file write (unconditionally, for every write outcome); when the write
fails and the error propagates, the event is in the buffer while the backing
file is unchanged, so the two diverge. -/
theorem append_memory_first (v : Vaultline) (e : Event)
    (lines : List (List Char)) (hf : v.file = some lines) :
    ((Vaultline.append v e false).2 = Except.error "io failure" ∧
      (Vaultline.append v e false).1.mem = v.mem ++ [e] ∧
      (Vaultline.append v e false).1.file = v.file) ∧
    (∀ writeOk : Bool, (Vaultline.append v e writeOk).1.mem = v.mem ++ [e]) := by
  constructor
  · unfold Vaultline.append
    rw [hf]
    simp
  · intro writeOk
    unfold Vaultline.append
    rw [hf]
    cases writeOk <;> simp

theorem append_memory_first_witness :
    ((Vaultline.new []).file = some []) ∧
    (((Vaultline.append (Vaultline.new []) ⟨5, "s", "l", "m", Jv.null⟩
        false).2 = Except.error "io failure" ∧
      (Vaultline.append (Vaultline.new []) ⟨5, "s", "l", "m", Jv.null⟩
        false).1.mem = (Vaultline.new []).mem ++ [⟨5, "s", "l", "m", Jv.null⟩] ∧
      (Vaultline.append (Vaultline.new []) ⟨5, "s", "l", "m", Jv.null⟩
        false).1.file = (Vaultline.new []).file) ∧
    (∀ writeOk : Bool,
      (Vaultline.append (Vaultline.new []) ⟨5, "s", "l", "m", Jv.null⟩
        writeOk).1.mem = (Vaultline.new []).mem ++
          [⟨5, "s", "l", "m", Jv.null⟩])) :=
  ⟨rfl, append_memory_first (Vaultline.new []) ⟨5, "s", "l", "m", Jv.null⟩
    [] rfl⟩

end Hyperion
